import Mathlib

/-!
Verification of the cloze-markup engine of `src/llm.rs` (PayloadExtractor and
ClozeComposer). Rust strings are embedded as lists of Unicode scalar values
(`List Char`); byte positions, where the source works with them, are recovered
through the UTF-8 size of each scalar. A computation that would make the Rust
program panic (slicing a `str` at a byte index that is not a character
boundary) is represented explicitly by the `Panics` type.
-/

set_option linter.unusedVariables false

/-- A Rust `str`/`String`, as its sequence of Unicode scalar values. -/
abbrev Str := List Char

/-- Outcome of a Rust computation that may panic. -/
inductive Panics (α : Type) : Type where
  | panicked : Panics α
  | value : α → Panics α
deriving DecidableEq

/-- Unicode White_Space property, which is what Rust `char::is_whitespace`
tests (and hence what `str::trim` strips). -/
def isRustWs (c : Char) : Bool :=
  let v := c.val
  (0x09 ≤ v && v ≤ 0x0D) || v == 0x20 || v == 0x85 || v == 0xA0 || v == 0x1680 ||
  (0x2000 ≤ v && v ≤ 0x200A) || v == 0x2028 || v == 0x2029 || v == 0x202F ||
  v == 0x205F || v == 0x3000

/-- Leading-whitespace removal, as in Rust `str::trim_start`. -/
def trimLeft (s : Str) : Str := s.dropWhile isRustWs

/-- Trailing-whitespace removal, as in Rust `str::trim_end`. -/
def trimRight (s : Str) : Str := (s.reverse.dropWhile isRustWs).reverse

/-- Rust `str::trim`: strip Unicode whitespace from both ends. -/
def trimStr (s : Str) : Str := trimRight (trimLeft s)

/-- Number of bytes of the UTF-8 encoding of one scalar value. -/
def utf8SizeC (c : Char) : Nat :=
  if c.toNat < 0x80 then 1 else if c.toNat < 0x800 then 2
  else if c.toNat < 0x10000 then 3 else 4

/-- Number of bytes of the UTF-8 encoding of a string (Rust `str::len`). -/
def utf8Len (s : Str) : Nat := (s.map utf8SizeC).sum

/-- Rust `str::find(pat)` for a string pattern, as the scalar index of the
leftmost occurrence. In UTF-8 a byte-level substring match of one valid
string inside another always begins on a character boundary (continuation
bytes cannot start a scalar), so the byte index Rust returns is exactly the
UTF-8 length of the first `subFind` scalars; the empty pattern matches at 0
in both renditions. -/
def subFind (pat : Str) : Str → Option Nat
  | [] => if pat.isPrefixOf ([] : Str) then some 0 else none
  | c :: t =>
    if pat.isPrefixOf (c :: t) then some 0
    else (subFind pat t).map (· + 1)

/-- Rust `str::contains(pat)` for a string pattern. -/
def containsSub (hay pat : Str) : Bool := (subFind pat hay).isSome

/-- Character index of the scalar starting at byte offset `p`, if `p` is a
character boundary of `s` (including `p = utf8Len s`); `none` models the
byte positions at which slicing a Rust `str` panics (mid-character, or past
the end). -/
def byteBoundary : Str → Nat → Option Nat
  | _, 0 => some 0
  | [], _ + 1 => none
  | c :: cs, p + 1 =>
    if utf8SizeC c ≤ p + 1 then (byteBoundary cs (p + 1 - utf8SizeC c)).map (· + 1)
    else none

/-- Unicode lowercase mapping of one scalar, as applied per character by Rust
`String::to_lowercase`. The source calls the standard library here, so this
models the Unicode Default Case Conversion table for the characters this
development evaluates on: the ASCII range exactly, plus U+212A KELVIN SIGN
(whose lowercase is `k`, shrinking the UTF-8 length from 3 bytes to 1) and
U+0130 (whose lowercase is two scalars). Characters outside this coverage
are kept unchanged, and the context-sensitive final-sigma rule is not
represented; no statement below evaluates the map outside its coverage. -/
def lowerChar (c : Char) : Str :=
  if c.toNat = 0x212A then ['k']
  else if c.toNat = 0x130 then ['i', Char.ofNat 0x307]
  else if 0x41 ≤ c.toNat ∧ c.toNat ≤ 0x5A then [Char.ofNat (c.toNat + 32)]
  else [c]

/-- Rust `String::to_lowercase`, per-character (see `lowerChar`). -/
def lowerStr : Str → Str
  | [] => []
  | c :: cs => lowerChar c ++ lowerStr cs

/-- The literal `&#x7b;&#x7b;c1::` marker, written out as scalars. -/
def clozeTok : Str := ['\x7b', '\x7b', 'c', '1', ':', ':']

/-- The literal closing `&#x7d;&#x7d;`. -/
def closeTok : Str := ['\x7d', '\x7d']

/-- The literal `::` hint separator. -/
def sepTok : Str := [':', ':']

/-- Brace-depth scan of `strip_existing_cloze_markup` (`llm.rs` lines
252-270): starting inside a candidate span with current depth `d`, consume
until a closing brace returns the depth to zero and yield the remaining
input, or fail at end of input. The source starts the scan at the first
brace with depth 0; the first character increments it, and the scan stops
exactly at the transition 1 to 0, so the depth argument never goes below 1
once inside the span. -/
def spanGo : Str → Nat → Option Str
  | [], _ => none
  | c :: cs, d =>
    if c = '\x7b' then spanGo cs (d + 1)
    else if c = '\x7d' then (if d = 1 then some cs else spanGo cs (d - 1))
    else spanGo cs d

/-- Consume one whole cloze span (opening brace run through the matching
closing brace), returning what follows it; `none` when the span never
closes. -/
def spanRest (s : Str) : Option Str := spanGo s 0

/-- The lookahead of `strip_existing_cloze_markup` (`llm.rs` lines 236-251):
does the input begin with a run of at least one opening brace, then `c` or
`C`, then zero or more ASCII digits, then two colons? -/
def clozeCandidate (s : Str) : Bool :=
  let braces := s.takeWhile (fun c => c = '\x7b')
  let rest := s.dropWhile (fun c => c = '\x7b')
  (!braces.isEmpty) &&
    (match rest with
     | c :: rest2 =>
       (c == 'c' || c == 'C') &&
         (match rest2.dropWhile Char.isDigit with
          | a :: b :: _ => a == ':' && b == ':'
          | _ => false)
     | [] => false)

/-- Main loop of `strip_existing_cloze_markup`: walk the characters; at a
cloze candidate consume the whole span (aborting with `none` when it never
closes) and emit the replacement word instead, recording that a replacement
happened; otherwise copy the character. The fuel argument is an upper bound
on the number of loop steps (each step consumes at least one character), so
`fuel = length` always suffices. -/
def stripGo (w : Str) : Nat → Str → Option (Str × Bool)
  | _, [] => some ([], false)
  | 0, _ :: _ => none
  | fuel + 1, c :: cs =>
    if clozeCandidate (c :: cs) then
      match spanRest (c :: cs) with
      | none => none
      | some rest => (stripGo w fuel rest).map (fun rb => (w ++ rb.1, true))
    else
      (stripGo w fuel cs).map (fun rb => (c :: rb.1, rb.2))

/-- Rust `strip_existing_cloze_markup` (`llm.rs` lines 229-289): replace every
recognized cloze span by `replacement`; `none` when no span was replaced or
when a span opens and never closes (abort without partial rewrite). -/
def strip_existing_cloze_markup (sentence replacement : Str) : Option Str :=
  match stripGo replacement sentence.length sentence with
  | some (r, true) => some r
  | _ => none

/-- Rust `advance_by_chars` (`llm.rs` lines 329-339), transcribed to scalar
indices: starting at scalar index `i` (the source receives the equivalent
byte offset), advance by `cnt` scalars, saturating at the end of the string;
a count of zero makes the source loop run to the end and return
`text.len()`. The returned scalar index corresponds to the byte offset the
source returns. -/
def advance_by_chars (s : Str) (i cnt : Nat) : Nat :=
  if cnt = 0 then s.length else min (i + cnt) s.length

/-- Rust `wrap_with_cloze` (`llm.rs` lines 291-327). The already-wrapped
guard and the exact-case branch are pure scalar operations (the byte
offsets the source slices at are the boundaries of the matched occurrence).
The case-insensitive branch searches the lowercased sentence and then
slices the original sentence at the byte offset found there; when that
offset is not a character boundary of the original sentence the source
panics, modeled by `Panics.panicked`. `value none` is the not-found case in
which the source logs a warning. -/
def wrap_with_cloze (sentence w : Str) : Panics (Option Str) :=
  if containsSub sentence clozeTok then .value (some sentence)
  else
    match subFind w sentence with
    | some i =>
      .value (some (sentence.take i ++ clozeTok ++ w ++ closeTok ++
        sentence.drop (i + w.length)))
    | none =>
      let ls := lowerStr sentence
      let lw := lowerStr w
      match subFind lw ls with
      | none => .value none
      | some j =>
        let pos := utf8Len (ls.take j)
        match byteBoundary sentence pos with
        | none => .panicked
        | some i =>
          let e := advance_by_chars sentence i w.length
          .value (some (sentence.take i ++ clozeTok ++
            ((sentence.drop i).take (e - i)) ++ closeTok ++ sentence.drop e))

/-- Rust `inject_anki_hint` (`llm.rs` lines 341-361): trim the hint; locate
the cloze marker and its first closing braces; leave the sentence unchanged
when the span interior already contains `::`; otherwise splice the hint in
before the closing braces. All offsets the source uses are boundaries of
the ASCII marker or results of `find`, so the function never panics. -/
def inject_anki_hint (cloze_sentence hint : Str) : Str :=
  let h := trimStr hint
  if h.isEmpty then cloze_sentence
  else
    match subFind clozeTok cloze_sentence with
    | none => cloze_sentence
    | some st =>
      let rest := cloze_sentence.drop (st + 6)
      match subFind closeTok rest with
      | none => cloze_sentence
      | some e =>
        let inside := rest.take e
        if containsSub inside sepTok then cloze_sentence
        else cloze_sentence.take (st + 6) ++ inside ++ sepTok ++ h ++ rest.drop e

/-- Rust `build_cloze_sentence` (`llm.rs` lines 204-227). The returned flag
records whether the wrap-failure warning (`tracing::warn` at lines 214-218,
together with the one inside `wrap_with_cloze`) fired, in which case the
pre-normalization trimmed sentence is returned. -/
def build_cloze_sentence (raw_sentence w : Str) (hint : Option Str) :
    Panics (Str × Bool) :=
  let trimmed := trimStr raw_sentence
  let base := (strip_existing_cloze_markup trimmed w).getD trimmed
  match wrap_with_cloze base w with
  | .panicked => .panicked
  | .value none =>
    .value (match hint with
      | some hv => inject_anki_hint trimmed hv
      | none => trimmed, true)
  | .value (some wr) =>
    .value (match hint with
      | some hv => inject_anki_hint wr hv
      | none => wr, false)

/-- The spec's `compose(sentence, word, hint)` contract is implemented by
`build_cloze_sentence`. -/
abbrev compose (sentence w : Str) (hint : Option Str) : Panics (Str × Bool) :=
  build_cloze_sentence sentence w hint

/-- Number of (possibly overlapping) occurrences of `pat` in `hay`: one per
starting position at which `pat` is a prefix of the remaining input. -/
def countOcc (hay pat : Str) : Nat :=
  match hay with
  | [] => if pat.isEmpty then 1 else 0
  | _ :: t => (if pat.isPrefixOf hay then 1 else 0) + countOcc t pat

/-- No opening or closing brace occurs in the string. -/
def braceFree (s : Str) : Bool := s.all (fun c => !(c == '\x7b' || c == '\x7d'))

/-- Every scalar is ASCII. -/
def asciiStr (s : Str) : Bool := s.all (fun c => decide (c.toNat < 0x80))

/-- Rust `str::split_inclusive('\n')`: chunks of the input, each ending with
the newline that terminated it (the last chunk possibly without one); the
empty string yields no chunks. -/
def splitInclusiveNL : Str → List Str
  | [] => []
  | c :: cs =>
    if c = '\n' then [c] :: splitInclusiveNL cs
    else
      match splitInclusiveNL cs with
      | [] => [[c]]
      | l :: ls => (c :: l) :: ls

/-- The per-line map of Rust `str::lines`: remove one trailing `\n`, and then
one trailing `\r` only when a `\n` was removed. -/
def stripLineEnd (l : Str) : Str :=
  if l.getLast? = some '\n' then
    let l' := l.dropLast
    if l'.getLast? = some '\x0D' then l'.dropLast else l'
  else l

/-- Rust `str::lines`. -/
def rustLines (s : Str) : List Str := (splitInclusiveNL s).map stripLineEnd

/-- Join with newlines, as Rust `[&str]::join("\n")`. -/
def joinNL : List Str → Str
  | [] => []
  | [l] => l
  | l :: ls => l ++ '\n' :: joinNL ls

/-- The literal triple backtick fence marker. -/
def fence3 : Str := ['\x60', '\x60', '\x60']

/-- Rust `extract_json_block` (`llm.rs` lines 183-202): require a first line
starting with the fence marker; collect the remaining lines, failing when
there are none; drop the last one when, after trimming, it starts with the
fence marker; join the rest with newlines. -/
def extract_json_block (raw : Str) : Option Str :=
  match rustLines raw with
  | [] => none
  | first :: rest =>
    if fence3.isPrefixOf first then
      match rest with
      | [] => none
      | _ :: _ =>
        let content :=
          match rest.getLast? with
          | some last => if fence3.isPrefixOf (trimStr last) then rest.dropLast else rest
          | none => rest
        some (joinNL content)
    else none

/-- The payload-selection part of Rust `parse_json` (`llm.rs` lines 169-181):
trim the raw text; when it starts with a fence, use `extract_json_block`,
falling back to the trimmed text itself when extraction yields nothing;
the selected string is what `serde_json::from_str` is applied to. -/
def parse_json_payload (raw : Str) : Str :=
  let trimmed := trimStr raw
  if fence3.isPrefixOf trimmed then (extract_json_block trimmed).getD trimmed
  else trimmed

/-- JSON insignificant whitespace (RFC 8259: space, tab, line feed, carriage
return). -/
def isJsonWs (c : Char) : Bool := c == ' ' || c == '\x09' || c == '\n' || c == '\x0D'

/-- Modelled from the spec: the JSON decoding step (`serde_json::from_str`,
an external crate, not part of this repository's sources) that `parse_json`
applies to the selected payload, and that the spec requires to "fail with a
missing payload error rather than panicking" on an empty fenced block. Per
the JSON grammar a document must start (after insignificant whitespace)
with one of the characters that can begin a JSON value, so a payload that
does not is necessarily rejected by any JSON decoder; `true` means decoding
certainly fails. -/
def json_decode_must_fail (s : Str) : Bool :=
  match s.dropWhile isJsonWs with
  | [] => true
  | c :: _ =>
    !(c == '\x7b' || c == '[' || c == '"' || c == '-' || c.isDigit ||
      c == 't' || c == 'f' || c == 'n')

/-- The claim's reading of the extraction algorithm, following the spec's
words (section 4.1): after trimming, when the first line begins with a
fence delimiter the JSON substring is all lines after the first joined with
newlines, dropping the last when it is a possibly indented fence delimiter
(a fence with no closing delimiter still returns all lines after the
opening one); when the first line is not a fence delimiter the substring is
the trimmed text unchanged. -/
def spec_extracted_payload (raw : Str) : Str :=
  let t := trimStr raw
  match rustLines t with
  | [] => t
  | first :: rest =>
    if fence3.isPrefixOf first then
      joinNL
        (match rest.getLast? with
         | some last => if fence3.isPrefixOf (trimStr last) then rest.dropLast else rest
         | none => rest)
    else t

/-- A result string satisfies the well-formed-single-span part of claim C3:
exactly one occurrence of the cloze marker, and a closing brace pair after
it. -/
def spanWellFormedAt (r : Str) : Bool :=
  countOcc r clozeTok == 1 &&
    (match subFind clozeTok r with
     | some p => (subFind closeTok (r.drop (p + 6))).isSome
     | none => false)

/-- The disjunction claim C3 asserts of every invocation (weakened by
dropping its hint sub-clause, so refuting this refutes the claim a
fortiori): the result either carries a well-formed single cloze span, or is
the input returned unchanged accompanied by the wrap-failure warning. -/
def c3_claim_at (s w : Str) (hint : Option Str) : Bool :=
  match compose s w hint with
  | .panicked => false
  | .value (r, warned) => spanWellFormedAt r || (r == s && warned)

/-- What claim C4 asserts of a fresh wrap: the result has exactly one cloze
marker, the text between it and the next closing braces equals the word,
and removing the inserted markup gives back the input, i.e. all other text
is preserved verbatim. -/
def c4_claim_at (s w : Str) : Bool :=
  match compose s w none with
  | .panicked => false
  | .value (r, _) =>
    countOcc r clozeTok == 1 &&
      (match subFind clozeTok r with
       | some p =>
         let rest := r.drop (p + 6)
         (match subFind closeTok rest with
          | some e => (rest.take e == w) && (r.take p ++ w ++ rest.drop (e + 2) == s)
          | none => false)
       | none => false)

/-- What claim C8 asserts of an unmatched word: the sentence comes back
unchanged and the wrap-failure warning fires. -/
def c8_claim_at (s w : Str) : Bool :=
  match compose s w none with
  | .panicked => false
  | .value (r, warned) => r == s && warned

/-! ### Concrete evaluations settling the purely computational claims -/

/-- Claim C1, counterexample: `compose` is not idempotent. For the sentence
`abAba` and word `aba` the first application wraps via the case-insensitive
fallback, producing a span holding the original-case segment `abA`; the
second application normalizes that span back to the word `aba` and wraps
again, producing a different sentence. -/
theorem c1_counterexample :
    compose ['a', 'b', 'A', 'b', 'a'] ['a', 'b', 'a'] none =
      .value (clozeTok ++ ['a', 'b', 'A'] ++ closeTok ++ ['b', 'a'], false) ∧
    compose (clozeTok ++ ['a', 'b', 'A'] ++ closeTok ++ ['b', 'a']) ['a', 'b', 'a'] none =
      .value (clozeTok ++ ['a', 'b', 'a'] ++ closeTok ++ ['b', 'a'], false) ∧
    clozeTok ++ ['a', 'b', 'a'] ++ closeTok ++ ['b', 'a'] ≠
      clozeTok ++ ['a', 'b', 'A'] ++ closeTok ++ ['b', 'a'] := by
  refine ⟨by decide, by decide, by decide⟩

/-- Claim C2, counterexample: composing `&#x7b;&#x7b;c1::answer::existing&#x7d;&#x7d; text`
with word `answer` and hint `new` does not leave the existing hint
untouched: normalization replaces the whole span (hint included) by the
bare word before wrapping, and the new hint is then injected, so the result
carries `::new`, not `::existing`. -/
theorem c2_counterexample :
    compose
        (clozeTok ++ ['a', 'n', 's', 'w', 'e', 'r'] ++ sepTok ++
          ['e', 'x', 'i', 's', 't', 'i', 'n', 'g'] ++ closeTok ++ [' ', 't', 'e', 'x', 't'])
        ['a', 'n', 's', 'w', 'e', 'r'] (some ['n', 'e', 'w']) =
      .value (clozeTok ++ ['a', 'n', 's', 'w', 'e', 'r'] ++ sepTok ++ ['n', 'e', 'w'] ++
        closeTok ++ [' ', 't', 'e', 'x', 't'], false) ∧
    clozeTok ++ ['a', 'n', 's', 'w', 'e', 'r'] ++ sepTok ++ ['n', 'e', 'w'] ++
        closeTok ++ [' ', 't', 'e', 'x', 't'] ≠
      clozeTok ++ ['a', 'n', 's', 'w', 'e', 'r'] ++ sepTok ++
        ['e', 'x', 'i', 's', 't', 'i', 'n', 'g'] ++ closeTok ++ [' ', 't', 'e', 'x', 't'] := by
  refine ⟨by decide, by decide⟩

/-- Claim C2, amended: normalization strips an existing span together with
its embedded hint and the supplied hint is injected into the fresh span, so
the example returns `::new`; the never-overwrite guard protects a hint only
when its span survives to the injection step, as when malformed later
markup aborts normalization and the already-wrapped guard returns the base
unchanged — there the `::`-bearing interior is left untouched and the new
hint is not injected. -/
theorem c2_amended_hint_merge :
    compose
        (clozeTok ++ ['a', 'n', 's', 'w', 'e', 'r'] ++ sepTok ++
          ['e', 'x', 'i', 's', 't', 'i', 'n', 'g'] ++ closeTok ++ [' ', 't', 'e', 'x', 't'])
        ['a', 'n', 's', 'w', 'e', 'r'] (some ['n', 'e', 'w']) =
      .value (clozeTok ++ ['a', 'n', 's', 'w', 'e', 'r'] ++ sepTok ++ ['n', 'e', 'w'] ++
        closeTok ++ [' ', 't', 'e', 'x', 't'], false) ∧
    compose
        (['t', 'e', 'x', 't', ' '] ++ clozeTok ++ ['a'] ++ sepTok ++ ['b'] ++ closeTok ++
          [' '] ++ clozeTok ++ ['x'])
        ['q'] (some ['n', 'e', 'w']) =
      .value (['t', 'e', 'x', 't', ' '] ++ clozeTok ++ ['a'] ++ sepTok ++ ['b'] ++ closeTok ++
        [' '] ++ clozeTok ++ ['x'], false) := by
  refine ⟨by decide, by decide⟩

/-- Claim C3, counterexample: for a sentence whose pre-existing markup holds
one closed and one never-closed span, normalization aborts, the
already-wrapped guard returns the base unchanged, and the result carries
two cloze markers with no warning — neither a well-formed single span nor
the warned unchanged-return the claim allows. -/
theorem c3_counterexample :
    c3_claim_at (clozeTok ++ ['a', ' '] ++ clozeTok ++ ['b']) ['x'] none = false ∧
    compose (clozeTok ++ ['a', ' '] ++ clozeTok ++ ['b']) ['x'] none =
      .value (clozeTok ++ ['a', ' '] ++ clozeTok ++ ['b'], false) ∧
    countOcc (clozeTok ++ ['a', ' '] ++ clozeTok ++ ['b']) clozeTok = 2 := by
  refine ⟨by decide, by decide, by decide⟩

/-- Claim C4, counterexample: the sentence `&#x7b;&#x7b;c2::x&#x7d;&#x7d; a` does not contain
`&#x7b;&#x7b;c1::` and contains the word `a` verbatim, yet `compose` does not
preserve all other text: normalization rewrites the `c2` span into the bare
word before wrapping, so the input cannot be reconstructed from the
output. -/
theorem c4_counterexample :
    containsSub ['\x7b', '\x7b', 'c', '2', ':', ':', 'x', '\x7d', '\x7d', ' ', 'a']
      clozeTok = false ∧
    containsSub ['\x7b', '\x7b', 'c', '2', ':', ':', 'x', '\x7d', '\x7d', ' ', 'a'] ['a'] = true ∧
    c4_claim_at ['\x7b', '\x7b', 'c', '2', ':', ':', 'x', '\x7d', '\x7d', ' ', 'a'] ['a'] =
      false := by
  refine ⟨by decide, by decide, by decide⟩

/-- Claim C5: evaluation at the failing input. The sentence is U+212A KELVIN
SIGN followed by `ab` and the word is `A`: no exact-case occurrence exists,
the case-insensitive search succeeds (the sentence lowercases to `kab`),
but the byte offset 1 found in the lowercased string is not a character
boundary of the original sentence (the Kelvin sign occupies bytes 0-2), so
the slice in `wrap_with_cloze` panics instead of wrapping. -/
theorem c5_panic_eval :
    subFind ['A'] [Char.ofNat 0x212A, 'a', 'b'] = none ∧
    (subFind (lowerStr ['A']) (lowerStr [Char.ofNat 0x212A, 'a', 'b'])).isSome = true ∧
    wrap_with_cloze [Char.ofNat 0x212A, 'a', 'b'] ['A'] = .panicked ∧
    compose [Char.ofNat 0x212A, 'a', 'b'] ['A'] none = .panicked := by
  refine ⟨by decide, by decide, by decide, by decide⟩

/-- Claim C6: an opening fence followed by nothing yields no extracted block
(`extract_json_block` returns `none`), `parse_json` then falls back to the
trimmed raw text itself — not some other extracted text — and that payload
cannot decode as JSON (its first character cannot start a JSON value), so
decoding fails rather than succeeding or panicking. -/
theorem c6_empty_fence :
    extract_json_block fence3 = none ∧
    parse_json_payload fence3 = fence3 ∧
    json_decode_must_fail (parse_json_payload fence3) = true := by
  refine ⟨by decide, by decide, by decide⟩

/-- Claim C7, counterexample: a sentence with an unclosed cloze candidate can
still make `compose` panic. Here normalization aborts as claimed (the
candidate at index 3 never closes) and the whole sentence becomes the
plain-text base, but the case-insensitive wrap fallback then slices the
non-ASCII base at a non-boundary byte offset and panics. -/
theorem c7_counterexample :
    clozeCandidate
      (List.drop 3 [Char.ofNat 0x212A, 'a', ' ', '\x7b', 'c', '1', ':', ':', 'x']) = true ∧
    spanRest
      (List.drop 3 [Char.ofNat 0x212A, 'a', ' ', '\x7b', 'c', '1', ':', ':', 'x']) = none ∧
    compose [Char.ofNat 0x212A, 'a', ' ', '\x7b', 'c', '1', ':', ':', 'x'] ['A'] none =
      .panicked := by
  refine ⟨by decide, by decide, by decide⟩

/-- Claim C8, counterexample: when the word has neither an exact-case nor a
case-insensitive occurrence but the (normalization-aborted) base still
contains `&#x7b;&#x7b;c1::`, the already-wrapped guard returns the sentence unchanged
without the wrap-failure warning, so the claim's required warning does not
surface. -/
theorem c8_counterexample :
    strip_existing_cloze_markup (clozeTok ++ ['a', ' ', '\x7b', '\x7b']) ['z', 'z', 'z'] =
      none ∧
    subFind ['z', 'z', 'z'] (clozeTok ++ ['a', ' ', '\x7b', '\x7b']) = none ∧
    subFind (lowerStr ['z', 'z', 'z']) (lowerStr (clozeTok ++ ['a', ' ', '\x7b', '\x7b'])) =
      none ∧
    c8_claim_at (clozeTok ++ ['a', ' ', '\x7b', '\x7b']) ['z', 'z', 'z'] = false := by
  refine ⟨by decide, by decide, by decide, by decide⟩

/-- Claim C9, counterexample: for the raw input consisting of the opening
fence alone, the claim's algorithm ("all lines after the first joined with
newlines") yields the empty string, but `parse_json` selects the trimmed
raw text itself, because `extract_json_block` yields nothing and the code
falls back to the trimmed input. -/
theorem c9_counterexample :
    parse_json_payload fence3 ≠ spec_extracted_payload fence3 := by decide

/-! ### Helper lemmas: trimming -/

theorem isPrefixOf_iff_pre {l₁ l₂ : Str} : l₁.isPrefixOf l₂ = true ↔ l₁ <+: l₂ :=
  List.isPrefixOf_iff_prefix

theorem take_pre (n : Nat) (l : Str) : l.take n <+: l :=
  List.take_prefix n l

theorem dropLast_pre (l : Str) : l.dropLast <+: l :=
  List.dropLast_prefix l

theorem reverse_pre_iff {l₁ l₂ : Str} : l₁.reverse <+: l₂.reverse ↔ l₁ <:+ l₂ :=
  List.reverse_prefix

theorem dropWhile_head_not {p : Char → Bool} : ∀ (l : Str) (a : Char),
    (l.dropWhile p).head? = some a → p a = false
  | [], a => by simp [List.dropWhile]
  | c :: t, a => by
    rw [List.dropWhile_cons]
    split
    · exact dropWhile_head_not t a
    · next h =>
      intro he
      simp only [List.head?_cons, Option.some.injEq] at he
      subst he
      simpa using h

theorem prefix_head_eq {l₁ l₂ : Str} (h : l₁ <+: l₂) (hne : l₁ ≠ []) :
    l₂.head? = l₁.head? := by
  obtain ⟨t, rfl⟩ := h
  cases l₁ with
  | nil => exact absurd rfl hne
  | cons c cs => simp

theorem prefix_trimRight (s : Str) : trimRight s <+: s := by
  have h1 : trimRight s <+: s.reverse.reverse := by
    rw [trimRight]
    exact reverse_pre_iff.mpr (List.dropWhile_suffix _)
  simpa using h1

theorem trimLeft_suffix (s : Str) : trimLeft s <:+ s := List.dropWhile_suffix _

theorem trimStr_head_not (s : Str) (a : Char) (h : (trimStr s).head? = some a) :
    isRustWs a = false := by
  have hp : trimStr s <+: trimLeft s := prefix_trimRight (trimLeft s)
  have hne : trimStr s ≠ [] := by
    intro he
    rw [he] at h
    cases h
  have h2 : (trimLeft s).head? = some a := by
    rw [prefix_head_eq hp hne]
    exact h
  exact dropWhile_head_not s a h2

theorem trimStr_getLast_not (s : Str) (a : Char) (h : (trimStr s).getLast? = some a) :
    isRustWs a = false := by
  rw [List.getLast?_eq_head?_reverse] at h
  have h2 : ((trimLeft s).reverse.dropWhile isRustWs).head? = some a := by
    rw [trimStr, trimRight, List.reverse_reverse] at h
    exact h
  exact dropWhile_head_not _ a h2

theorem trimLeft_eq_self {s : Str} (h : ∀ a, s.head? = some a → isRustWs a = false) :
    trimLeft s = s := by
  cases s with
  | nil => rfl
  | cons c cs =>
    rw [trimLeft, List.dropWhile_cons, if_neg]
    rw [h c rfl]
    simp

theorem trimRight_eq_self {s : Str} (h : ∀ a, s.getLast? = some a → isRustWs a = false) :
    trimRight s = s := by
  rw [trimRight]
  have := trimLeft_eq_self (show ∀ a, (s.reverse).head? = some a → isRustWs a = false
    from fun a ha => by
      rw [List.head?_reverse] at ha
      exact h a ha)
  rw [trimLeft] at this
  rw [this, List.reverse_reverse]

theorem trimStr_eq_self {s : Str} (h1 : ∀ a, s.head? = some a → isRustWs a = false)
    (h2 : ∀ a, s.getLast? = some a → isRustWs a = false) : trimStr s = s := by
  rw [trimStr, trimLeft_eq_self h1, trimRight_eq_self h2]

theorem trimStr_idem (s : Str) : trimStr (trimStr s) = trimStr s :=
  trimStr_eq_self (trimStr_head_not s) (trimStr_getLast_not s)

/-! ### Helper lemmas: substring search and occurrence counting -/

theorem subFind_some_spec (pat : Str) : ∀ (hay : Str) (i : Nat),
    subFind pat hay = some i → pat <+: hay.drop i ∧ i ≤ hay.length
  | [], i, h => by
    rw [subFind] at h
    split at h
    · next hp =>
      cases h
      exact ⟨isPrefixOf_iff_pre.mp hp, by simp⟩
    · cases h
  | c :: t, i, h => by
    rw [subFind] at h
    split at h
    · next hp =>
      cases h
      exact ⟨by simpa using isPrefixOf_iff_pre.mp hp, by simp⟩
    · next hp =>
      cases hr : subFind pat t with
      | none => rw [hr] at h; cases h
      | some j =>
        rw [hr] at h
        simp only [Option.map_some', Option.some.injEq] at h
        subst h
        have hs := subFind_some_spec pat t j hr
        refine ⟨by simpa [List.drop_succ_cons] using hs.1, by simpa using hs.2⟩

theorem subFind_cons (pat : Str) (c : Char) (t : Str) :
    subFind pat (c :: t) =
      if pat.isPrefixOf (c :: t) then some 0 else (subFind pat t).map (· + 1) := rfl

theorem subFind_append_head (d : Char) (dt : Str) :
    ∀ (p x : Str), (∀ c ∈ p, c ≠ d) →
      subFind (d :: dt) (p ++ (d :: dt) ++ x) = some p.length
  | [], x, _ => by
    have h1 : ((d :: dt) ++ x) = d :: (dt ++ x) := rfl
    have hpre : (d :: dt).isPrefixOf (d :: (dt ++ x)) = true :=
      isPrefixOf_iff_pre.mpr (by rw [← h1]; exact List.prefix_append (d :: dt) x)
    rw [List.nil_append, h1, subFind_cons, if_pos hpre]
    rfl
  | c :: p', x, hp => by
    have hc : c ≠ d := hp c (List.mem_cons_self c p')
    have h1 : ((c :: p') ++ (d :: dt) ++ x) = c :: (p' ++ (d :: dt) ++ x) := by simp
    have hnp : ¬ ((d :: dt).isPrefixOf (c :: (p' ++ (d :: dt) ++ x)) = true) := by
      intro hpre
      obtain ⟨u, hu⟩ := isPrefixOf_iff_pre.mp hpre
      have hd : d = c := by
        have := congrArg List.head? hu
        simpa using this
      exact hc hd.symm
    rw [h1, subFind_cons, if_neg hnp,
      subFind_append_head d dt p' x (fun e he => hp e (List.mem_cons_of_mem c he))]
    rfl

theorem containsSub_parts (pat : Str) : ∀ (a b : Str),
    containsSub (a ++ pat ++ b) pat = true
  | [], b => by
    rw [List.nil_append, containsSub]
    cases pat with
    | nil =>
      cases b with
      | nil => rfl
      | cons y ys =>
        rw [List.nil_append, subFind_cons, if_pos (by simp [List.isPrefixOf])]
        rfl
    | cons d dt =>
      have h1 : ((d :: dt) ++ b) = d :: (dt ++ b) := rfl
      have hpre : (d :: dt).isPrefixOf (d :: (dt ++ b)) = true :=
        isPrefixOf_iff_pre.mpr (by rw [← h1]; exact List.prefix_append (d :: dt) b)
      rw [h1, subFind_cons, if_pos hpre]
      rfl
  | c :: a', b => by
    have ih := containsSub_parts pat a' b
    rw [containsSub] at ih ⊢
    have h1 : ((c :: a') ++ pat ++ b) = c :: (a' ++ pat ++ b) := by simp
    rw [h1, subFind_cons]
    split
    · rfl
    · simpa using ih

theorem subFind_mem {d : Char} {dt hay : Str} {i : Nat}
    (h : subFind (d :: dt) hay = some i) : d ∈ hay := by
  have hs := (subFind_some_spec (d :: dt) hay i h).1
  obtain ⟨u, hu⟩ := hs
  have : d ∈ hay.drop i := by
    rw [← hu]
    exact List.mem_append_left _ (List.mem_cons_self d dt)
  exact List.drop_subset i hay this

theorem braceFree_mem {s : Str} (h : braceFree s = true) {c : Char} (hc : c ∈ s) :
    c ≠ '\x7b' ∧ c ≠ '\x7d' := by
  have hall := List.all_eq_true.mp h c hc
  simp only [Bool.not_eq_true', Bool.or_eq_false_iff, beq_eq_false_iff_ne] at hall
  exact hall

theorem braceFree_of_subset {s u : Str} (h : braceFree s = true)
    (hsub : ∀ c ∈ u, c ∈ s) : braceFree u = true := by
  rw [braceFree, List.all_eq_true]
  intro c hc
  have := braceFree_mem h (hsub c hc)
  simp [this.1, this.2]

theorem braceFree_trimStr {s : Str} (h : braceFree s = true) :
    braceFree (trimStr s) = true :=
  braceFree_of_subset h (fun c hc =>
    (trimLeft_suffix s).subset ((prefix_trimRight (trimLeft s)).subset hc))

theorem containsSub_tok_of_braceFree {u : Str} (h : braceFree u = true) :
    containsSub u clozeTok = false := by
  rw [containsSub]
  cases hf : subFind clozeTok u with
  | none => rfl
  | some i =>
    exfalso
    have : ('\x7b' : Char) ∈ u := subFind_mem
      (show subFind ('\x7b' :: ['\x7b', 'c', '1', ':', ':']) u = some i from hf)
    exact (braceFree_mem h this).1 rfl

theorem head_ne_not_prefixOf {d c : Char} {dt t : Str} (h : c ≠ d) :
    (d :: dt).isPrefixOf (c :: t) = false := by
  cases hp : (d :: dt).isPrefixOf (c :: t)
  · rfl
  · exfalso
    obtain ⟨u, hu⟩ := isPrefixOf_iff_pre.mp hp
    have hd : d = c := by
      have := congrArg List.head? hu
      simpa using this
    exact h hd.symm

theorem tok_prefixOf_cons_false {c : Char} (h : c ≠ '\x7b') (t : Str) :
    clozeTok.isPrefixOf (c :: t) = false :=
  head_ne_not_prefixOf h

theorem countOcc_cons (c : Char) (t pat : Str) :
    countOcc (c :: t) pat =
      (if pat.isPrefixOf (c :: t) then 1 else 0) + countOcc t pat := rfl

theorem countOcc_skip : ∀ (a : Str), (∀ c ∈ a, c ≠ '\x7b') → ∀ (b : Str),
    countOcc (a ++ b) clozeTok = countOcc b clozeTok
  | [], _, b => by rw [List.nil_append]
  | c :: a', ha, b => by
    rw [show ((c :: a') ++ b) = c :: (a' ++ b) from rfl, countOcc_cons,
      tok_prefixOf_cons_false (ha c (List.mem_cons_self c a')),
      countOcc_skip a' (fun e he => ha e (List.mem_cons_of_mem c he)) b]
    simp

theorem countOcc_wrap (w q : Str) (hw : ∀ c ∈ w, c ≠ '\x7b') (hq : ∀ c ∈ q, c ≠ '\x7b') :
    countOcc (clozeTok ++ w ++ closeTok ++ q) clozeTok = 1 := by
  have e1 : clozeTok ++ w ++ closeTok ++ q =
      '\x7b' :: '\x7b' :: 'c' :: '1' :: ':' :: ':' :: (w ++ ('\x7d' :: '\x7d' :: q)) := by
    simp [clozeTok, closeTok]
  have hq0 : countOcc q clozeTok = 0 := by
    have := countOcc_skip q hq []
    simpa [countOcc] using this
  rw [e1, countOcc_cons, countOcc_cons, countOcc_cons, countOcc_cons, countOcc_cons,
    countOcc_cons, countOcc_skip w hw ('\x7d' :: '\x7d' :: q), countOcc_cons, countOcc_cons, hq0]
  simp [clozeTok, List.isPrefixOf]

theorem countOcc_result (p w q : Str) (hp : ∀ c ∈ p, c ≠ '\x7b')
    (hw : ∀ c ∈ w, c ≠ '\x7b') (hq : ∀ c ∈ q, c ≠ '\x7b') :
    countOcc (p ++ clozeTok ++ w ++ closeTok ++ q) clozeTok = 1 := by
  have e : p ++ clozeTok ++ w ++ closeTok ++ q =
      p ++ (clozeTok ++ w ++ closeTok ++ q) := by simp [List.append_assoc]
  rw [e, countOcc_skip p hp, countOcc_wrap w q hw hq]

/-! ### Helper lemmas: the normalization scanner -/

theorem clozeCandidate_head : ∀ {s : Str}, clozeCandidate s = true → ∃ t, s = '\x7b' :: t := by
  intro s h
  cases s with
  | nil => simp [clozeCandidate] at h
  | cons c cs =>
    by_cases hc : c = '\x7b'
    · exact ⟨cs, by rw [hc]⟩
    · exfalso
      rw [clozeCandidate] at h
      simp [List.takeWhile_cons, hc] at h

theorem clozeCandidate_cons_false {c : Char} (hc : c ≠ '\x7b') (cs : Str) :
    clozeCandidate (c :: cs) = false := by
  cases h : clozeCandidate (c :: cs)
  · rfl
  · obtain ⟨t, ht⟩ := clozeCandidate_head h
    cases ht
    exact absurd rfl hc

theorem clozeCandidate_tok (X : Str) :
    clozeCandidate ('\x7b' :: '\x7b' :: 'c' :: '1' :: ':' :: ':' :: X) = true := rfl

theorem spanGo_cons (c : Char) (cs : Str) (d : Nat) :
    spanGo (c :: cs) d =
      if c = '\x7b' then spanGo cs (d + 1)
      else if c = '\x7d' then (if d = 1 then some cs else spanGo cs (d - 1))
      else spanGo cs d := rfl

theorem spanGo_some_length : ∀ (s : Str) (d : Nat) (r : Str),
    spanGo s d = some r → r.length < s.length
  | [], d, r, h => by cases h
  | c :: cs, d, r, h => by
    rw [spanGo_cons] at h
    split at h
    · have := spanGo_some_length cs (d + 1) r h
      simpa using Nat.lt_succ_of_lt this
    · split at h
      · split at h
        · have := Option.some.inj h
          subst this
          simp
        · have := spanGo_some_length cs (d - 1) r h
          simpa using Nat.lt_succ_of_lt this
      · have := spanGo_some_length cs d r h
        simpa using Nat.lt_succ_of_lt this

theorem spanGo_some_suffix : ∀ (s : Str) (d : Nat) (r : Str),
    spanGo s d = some r → ∃ k, 0 < k ∧ r = s.drop k
  | [], d, r, h => by cases h
  | c :: cs, d, r, h => by
    rw [spanGo_cons] at h
    split at h
    · obtain ⟨k, hk, hr⟩ := spanGo_some_suffix cs (d + 1) r h
      exact ⟨k + 1, by omega, by simpa [List.drop_succ_cons] using hr⟩
    · split at h
      · split at h
        · have := Option.some.inj h
          exact ⟨1, one_pos, by simpa using this.symm⟩
        · obtain ⟨k, hk, hr⟩ := spanGo_some_suffix cs (d - 1) r h
          exact ⟨k + 1, by omega, by simpa [List.drop_succ_cons] using hr⟩
      · obtain ⟨k, hk, hr⟩ := spanGo_some_suffix cs d r h
        exact ⟨k + 1, by omega, by simpa [List.drop_succ_cons] using hr⟩

theorem spanGo_skip : ∀ (u : Str), (∀ c ∈ u, c ≠ '\x7b' ∧ c ≠ '\x7d') →
    ∀ (rest : Str) (d : Nat), spanGo (u ++ rest) d = spanGo rest d
  | [], _, rest, d => by rw [List.nil_append]
  | c :: u', hu, rest, d => by
    have hc := hu c (List.mem_cons_self c u')
    rw [show ((c :: u') ++ rest) = c :: (u' ++ rest) from rfl, spanGo_cons, if_neg hc.1,
      if_neg hc.2, spanGo_skip u' (fun e he => hu e (List.mem_cons_of_mem c he)) rest d]

theorem spanRest_tok (w q : Str) (hw : ∀ c ∈ w, c ≠ '\x7b' ∧ c ≠ '\x7d') :
    spanRest ('\x7b' :: '\x7b' :: 'c' :: '1' :: ':' :: ':' :: (w ++ ('\x7d' :: '\x7d' :: q))) =
      some q := by
  have s1 : ∀ (T : Str),
      spanGo ('\x7b' :: '\x7b' :: 'c' :: '1' :: ':' :: ':' :: T) 0 = spanGo T 2 :=
    fun T => rfl
  have s2 : spanGo ('\x7d' :: '\x7d' :: q) 2 = some q := rfl
  rw [spanRest, s1, spanGo_skip w hw ('\x7d' :: '\x7d' :: q) 2, s2]

theorem stripGo_nil (w : Str) (fuel : Nat) : stripGo w fuel [] = some ([], false) := by
  cases fuel <;> rfl

theorem stripGo_cons (w : Str) (fuel : Nat) (c : Char) (cs : Str) :
    stripGo w (fuel + 1) (c :: cs) =
      if clozeCandidate (c :: cs) then
        match spanRest (c :: cs) with
        | none => none
        | some rest => (stripGo w fuel rest).map (fun rb => (w ++ rb.1, true))
      else (stripGo w fuel cs).map (fun rb => (c :: rb.1, rb.2)) := rfl

theorem stripGo_fuel (w : Str) : ∀ (f : Nat) (s : Str) (f' : Nat),
    s.length ≤ f → s.length ≤ f' → stripGo w f s = stripGo w f' s := by
  intro f
  induction f with
  | zero =>
    intro s f' hf hf'
    cases s with
    | nil => rw [stripGo_nil, stripGo_nil]
    | cons c cs => simp at hf
  | succ f ih =>
    intro s f' hf hf'
    cases s with
    | nil => rw [stripGo_nil, stripGo_nil]
    | cons c cs =>
      cases f' with
      | zero => simp at hf'
      | succ f'' =>
        rw [stripGo_cons, stripGo_cons]
        by_cases hc : clozeCandidate (c :: cs) = true
        · rw [if_pos hc, if_pos hc]
          cases hsp : spanRest (c :: cs) with
          | none => rfl
          | some rest =>
            have hlen : rest.length < cs.length + 1 := spanGo_some_length _ _ _ hsp
            have hf2 : cs.length + 1 ≤ f + 1 := by simpa using hf
            have hf2' : cs.length + 1 ≤ f'' + 1 := by simpa using hf'
            show Option.map (fun rb => (w ++ rb.1, true)) (stripGo w f rest) =
              Option.map (fun rb => (w ++ rb.1, true)) (stripGo w f'' rest)
            rw [ih rest f'' (by omega) (by omega)]
        · rw [if_neg hc, if_neg hc]
          rw [ih cs f'' (by simpa using hf) (by simpa using hf')]

theorem stripGo_braceFree (w : Str) : ∀ (u : Str), braceFree u = true → ∀ (f : Nat),
    u.length ≤ f → stripGo w f u = some (u, false)
  | [], _, f, _ => stripGo_nil w f
  | c :: u', hu, f, hf => by
    have hc := braceFree_mem hu (List.mem_cons_self c u')
    cases f with
    | zero => simp at hf
    | succ f' =>
      rw [stripGo_cons, if_neg (by rw [clozeCandidate_cons_false hc.1]; simp),
        stripGo_braceFree w u'
          (braceFree_of_subset hu (fun e he => List.mem_cons_of_mem c he)) f'
          (by simpa using hf)]
      rfl

theorem strip_none_of_braceFree {s : Str} (h : braceFree s = true) (w : Str) :
    strip_existing_cloze_markup s w = none := by
  rw [strip_existing_cloze_markup, stripGo_braceFree w s h s.length le_rfl]

theorem stripGo_prefix_append (w : Str) : ∀ (p : Str), braceFree p = true →
    ∀ (rest : Str) (f : Nat), (p ++ rest).length ≤ f →
      stripGo w f (p ++ rest) =
        (stripGo w rest.length rest).map (fun rb => (p ++ rb.1, rb.2))
  | [], _, rest, f, hf => by
    rw [List.nil_append, stripGo_fuel w f rest rest.length (by simpa using hf) le_rfl]
    cases stripGo w rest.length rest with
    | none => rfl
    | some rb => simp
  | c :: p', hp, rest, f, hf => by
    have hc := braceFree_mem hp (List.mem_cons_self c p')
    cases f with
    | zero => simp at hf
    | succ f' =>
      rw [show ((c :: p') ++ rest) = c :: (p' ++ rest) from rfl, stripGo_cons,
        if_neg (by rw [clozeCandidate_cons_false hc.1]; simp),
        stripGo_prefix_append w p'
          (braceFree_of_subset hp (fun e he => List.mem_cons_of_mem c he)) rest f'
          (by simpa using hf)]
      cases stripGo w rest.length rest with
      | none => rfl
      | some rb => simp

theorem strip_wrapped (p w q u : Str) (hp : braceFree p = true) (hw : braceFree w = true)
    (hq : braceFree q = true) :
    strip_existing_cloze_markup (p ++ clozeTok ++ w ++ closeTok ++ q) u =
      some (p ++ u ++ q) := by
  have e : p ++ clozeTok ++ w ++ closeTok ++ q =
      p ++ ('\x7b' :: '\x7b' :: 'c' :: '1' :: ':' :: ':' :: (w ++ ('\x7d' :: '\x7d' :: q))) := by
    simp [clozeTok, closeTok]
  set T := '\x7b' :: 'c' :: '1' :: ':' :: ':' :: (w ++ ('\x7d' :: '\x7d' :: q)) with hT
  have e2 : ('\x7b' :: '\x7b' :: 'c' :: '1' :: ':' :: ':' :: (w ++ ('\x7d' :: '\x7d' :: q))) =
      '\x7b' :: T := by rw [hT]
  have hqlen : q.length ≤ T.length := by
    rw [hT]
    simp [List.length_append]
    omega
  have hspan : stripGo u (('\x7b' :: T).length) ('\x7b' :: T) = some (u ++ q, true) := by
    rw [show ('\x7b' :: T).length = T.length + 1 from by simp, stripGo_cons,
      if_pos (by rw [hT]; exact clozeCandidate_tok _),
      show ('\x7b' :: T) = '\x7b' :: '\x7b' :: 'c' :: '1' :: ':' :: ':' ::
        (w ++ ('\x7d' :: '\x7d' :: q)) from by rw [hT],
      spanRest_tok w q (fun c hc => braceFree_mem hw hc)]
    show Option.map (fun rb => (u ++ rb.1, true)) (stripGo u T.length q) =
      some (u ++ q, true)
    rw [stripGo_braceFree u q hq T.length hqlen]
    rfl
  rw [strip_existing_cloze_markup, e, e2,
    stripGo_prefix_append u p hp ('\x7b' :: T) _ le_rfl, hspan]
  simp [List.append_assoc]

/-! ### Helper lemmas: wrapping branches -/

theorem subFind_eq_none_of_not_contains {hay pat : Str}
    (h : containsSub hay pat = false) : subFind pat hay = none := by
  cases hf : subFind pat hay with
  | none => rfl
  | some i => rw [containsSub, hf] at h; simp at h

theorem wrap_guard {s : Str} (h : containsSub s clozeTok = true) (w : Str) :
    wrap_with_cloze s w = .value (some s) := by
  rw [wrap_with_cloze, if_pos h]

theorem wrap_exact {s w : Str} {i : Nat} (h1 : containsSub s clozeTok = false)
    (h2 : subFind w s = some i) :
    wrap_with_cloze s w = .value (some (s.take i ++ clozeTok ++ w ++ closeTok ++
      s.drop (i + w.length))) := by
  rw [wrap_with_cloze, if_neg (by simp [h1]), h2]

theorem wrap_fail {s w : Str} (h1 : containsSub s clozeTok = false)
    (h2 : subFind w s = none) (h3 : subFind (lowerStr w) (lowerStr s) = none) :
    wrap_with_cloze s w = .value none := by
  rw [wrap_with_cloze, if_neg (by simp [h1]), h2]
  show (match subFind (lowerStr w) (lowerStr s) with
    | none => Panics.value none
    | some j => _) = Panics.value none
  rw [h3]

/-! ### Helper lemmas: ASCII strings and lowercasing -/

theorem asciiStr_mem {s : Str} (h : asciiStr s = true) {c : Char} (hc : c ∈ s) :
    c.toNat < 0x80 := by
  have := List.all_eq_true.mp h c hc
  simpa using this

theorem asciiStr_of_subset {s u : Str} (h : asciiStr s = true) (hsub : ∀ c ∈ u, c ∈ s) :
    asciiStr u = true := by
  rw [asciiStr, List.all_eq_true]
  intro c hc
  simpa using asciiStr_mem h (hsub c hc)

theorem lowerChar_ascii {c : Char} (h : c.toNat < 0x80) :
    ∃ d : Char, lowerChar c = [d] ∧ d.toNat < 0x80 := by
  rw [lowerChar, if_neg (by omega), if_neg (by omega)]
  by_cases hz : 0x41 ≤ c.toNat ∧ c.toNat ≤ 0x5A
  · refine ⟨Char.ofNat (c.toNat + 32), by rw [if_pos hz], ?_⟩
    have hv : Nat.isValidChar (c.toNat + 32) := Or.inl (by omega)
    rw [Char.ofNat, dif_pos hv]
    show c.toNat + 32 < 0x80
    omega
  · exact ⟨c, by rw [if_neg hz], h⟩

theorem utf8SizeC_ascii {c : Char} (h : c.toNat < 0x80) : utf8SizeC c = 1 := by
  rw [utf8SizeC, if_pos h]

theorem lowerStr_cons (c : Char) (s : Str) :
    lowerStr (c :: s) = lowerChar c ++ lowerStr s := rfl

theorem lowerStr_append : ∀ (a b : Str), lowerStr (a ++ b) = lowerStr a ++ lowerStr b
  | [], b => rfl
  | c :: a', b => by
    rw [show ((c :: a') ++ b) = c :: (a' ++ b) from rfl, lowerStr_cons, lowerStr_cons,
      lowerStr_append a' b, List.append_assoc]

theorem lowerStr_length_ascii : ∀ (s : Str), asciiStr s = true →
    (lowerStr s).length = s.length
  | [], _ => rfl
  | c :: s', h => by
    obtain ⟨d, hd, _⟩ := lowerChar_ascii (asciiStr_mem h (List.mem_cons_self c s'))
    rw [lowerStr_cons, hd,
      show ([d] ++ lowerStr s') = d :: lowerStr s' from rfl, List.length_cons,
      lowerStr_length_ascii s'
        (asciiStr_of_subset h (fun e he => List.mem_cons_of_mem c he)),
      List.length_cons]

theorem lowerStr_ascii_out : ∀ (s : Str), asciiStr s = true →
    asciiStr (lowerStr s) = true
  | [], _ => rfl
  | c :: s', h => by
    obtain ⟨d, hd, hdlt⟩ := lowerChar_ascii (asciiStr_mem h (List.mem_cons_self c s'))
    have ht := lowerStr_ascii_out s'
      (asciiStr_of_subset h (fun e he => List.mem_cons_of_mem c he))
    rw [lowerStr_cons, hd, show ([d] ++ lowerStr s') = d :: lowerStr s' from rfl]
    rw [asciiStr, List.all_cons]
    rw [asciiStr] at ht
    simp [hdlt, ht]

theorem utf8Len_cons (c : Char) (s : Str) :
    utf8Len (c :: s) = utf8SizeC c + utf8Len s := by
  simp [utf8Len]

theorem utf8Len_ascii : ∀ (s : Str), asciiStr s = true → utf8Len s = s.length
  | [], _ => rfl
  | c :: s', h => by
    rw [utf8Len_cons, utf8SizeC_ascii (asciiStr_mem h (List.mem_cons_self c s')),
      utf8Len_ascii s' (asciiStr_of_subset h (fun e he => List.mem_cons_of_mem c he)),
      List.length_cons]
    omega

theorem byteBoundary_zero (s : Str) : byteBoundary s 0 = some 0 := by
  cases s <;> rfl

theorem byteBoundary_cons (c : Char) (cs : Str) (p : Nat) :
    byteBoundary (c :: cs) (p + 1) =
      if utf8SizeC c ≤ p + 1 then (byteBoundary cs (p + 1 - utf8SizeC c)).map (· + 1)
      else none := rfl

theorem byteBoundary_ascii : ∀ (s : Str), asciiStr s = true → ∀ (p : Nat),
    p ≤ s.length → byteBoundary s p = some p
  | s, h, 0, _ => byteBoundary_zero s
  | [], h, p + 1, hp => by simp at hp
  | c :: cs, h, p + 1, hp => by
    have hc : utf8SizeC c = 1 := utf8SizeC_ascii (asciiStr_mem h (List.mem_cons_self c cs))
    rw [byteBoundary_cons, if_pos (by omega), hc,
      byteBoundary_ascii cs (asciiStr_of_subset h (fun e he => List.mem_cons_of_mem c he))
        (p + 1 - 1) (by simpa using hp)]
    rfl

theorem lowerStr_drop_ascii : ∀ (s : Str), asciiStr s = true → ∀ (j : Nat),
    lowerStr (s.drop j) = (lowerStr s).drop j
  | s, h, 0 => by simp
  | [], h, j + 1 => by simp [lowerStr]
  | c :: cs, h, j + 1 => by
    obtain ⟨d, hd, _⟩ := lowerChar_ascii (asciiStr_mem h (List.mem_cons_self c cs))
    rw [List.drop_succ_cons, lowerStr_cons, hd,
      show ([d] ++ lowerStr cs) = d :: lowerStr cs from rfl, List.drop_succ_cons,
      lowerStr_drop_ascii cs (asciiStr_of_subset h (fun e he => List.mem_cons_of_mem c he)) j]

theorem lowerStr_take_ascii : ∀ (s : Str), asciiStr s = true → ∀ (j : Nat),
    lowerStr (s.take j) = (lowerStr s).take j
  | s, h, 0 => by simp [lowerStr]
  | [], h, j + 1 => by simp [lowerStr]
  | c :: cs, h, j + 1 => by
    obtain ⟨d, hd, _⟩ := lowerChar_ascii (asciiStr_mem h (List.mem_cons_self c cs))
    rw [List.take_succ_cons, lowerStr_cons, hd, lowerStr_cons, hd,
      show ([d] ++ lowerStr (cs.take j)) = d :: lowerStr (cs.take j) from rfl,
      show ([d] ++ lowerStr cs) = d :: lowerStr cs from rfl, List.take_succ_cons,
      lowerStr_take_ascii cs (asciiStr_of_subset h (fun e he => List.mem_cons_of_mem c he)) j]

/-! ### Helper lemmas: hint injection -/

theorem inject_no_tok {s : Str} (h : containsSub s clozeTok = false) (hint : Str) :
    inject_anki_hint s hint = s := by
  rw [inject_anki_hint]
  split
  · rfl
  · rw [subFind_eq_none_of_not_contains h]

theorem inject_wrapped (p a q hint : Str)
    (hp : ∀ c ∈ p, c ≠ '\x7b') (ha : ∀ c ∈ a, c ≠ '\x7b' ∧ c ≠ '\x7d')
    (hh : (trimStr hint).isEmpty = false) :
    inject_anki_hint (p ++ clozeTok ++ a ++ closeTok ++ q) hint =
      if containsSub a sepTok then p ++ clozeTok ++ a ++ closeTok ++ q
      else p ++ clozeTok ++ (a ++ sepTok ++ trimStr hint) ++ closeTok ++ q := by
  have hfind1 : subFind clozeTok (p ++ clozeTok ++ a ++ closeTok ++ q) = some p.length := by
    have e : p ++ clozeTok ++ a ++ closeTok ++ q =
        p ++ clozeTok ++ (a ++ closeTok ++ q) := by simp [List.append_assoc]
    rw [e, show clozeTok = '\x7b' :: ['\x7b', 'c', '1', ':', ':'] from rfl]
    exact subFind_append_head _ _ p (a ++ closeTok ++ q) hp
  have el : (p ++ clozeTok).length = p.length + 6 := by simp [clozeTok]
  have easc : p ++ clozeTok ++ a ++ closeTok ++ q =
      (p ++ clozeTok) ++ (a ++ closeTok ++ q) := by simp [List.append_assoc]
  have hdrop6 : (p ++ clozeTok ++ a ++ closeTok ++ q).drop (p.length + 6) =
      a ++ closeTok ++ q := by rw [easc, ← el, List.drop_left]
  have htake6 : (p ++ clozeTok ++ a ++ closeTok ++ q).take (p.length + 6) =
      p ++ clozeTok := by rw [easc, ← el, List.take_left]
  have hfind2 : subFind closeTok (a ++ closeTok ++ q) = some a.length := by
    rw [show closeTok = '\x7d' :: ['\x7d'] from rfl]
    exact subFind_append_head _ _ a q (fun c hc => (ha c hc).2)
  have easc2 : a ++ closeTok ++ q = a ++ (closeTok ++ q) := by simp [List.append_assoc]
  have htakea : (a ++ closeTok ++ q).take a.length = a := by
    rw [easc2]; exact List.take_left a (closeTok ++ q)
  have hdropa : (a ++ closeTok ++ q).drop a.length = closeTok ++ q := by
    rw [easc2]; exact List.drop_left a (closeTok ++ q)
  by_cases hc : containsSub a sepTok = true
  · rw [if_pos hc]
    simp only [inject_anki_hint, hh, hfind1, hdrop6, hfind2, htakea, hc]
    simp
  · have hc' : containsSub a sepTok = false := by simpa using hc
    rw [if_neg hc]
    simp only [inject_anki_hint, hh, hfind1, hdrop6, hfind2, htakea, hdropa, htake6, hc']
    simp [List.append_assoc]

theorem take_drop_reconstruct {t w : Str} {i : Nat} (h : subFind w t = some i) :
    t.take i ++ w ++ t.drop (i + w.length) = t := by
  obtain ⟨u, hu⟩ := (subFind_some_spec w t i h).1
  have hdrop : t.drop (i + w.length) = u := by
    rw [← List.drop_drop, ← hu, List.drop_left]
  rw [hdrop]
  conv_rhs => rw [← List.take_append_drop i t, ← hu]
  simp [List.append_assoc]

theorem mem_of_find {t w : Str} {i : Nat} (h : subFind w t = some i) :
    ∀ c ∈ w, c ∈ t := by
  intro c hc
  obtain ⟨u, hu⟩ := (subFind_some_spec w t i h).1
  have : c ∈ t.drop i := by
    rw [← hu]
    exact List.mem_append_left _ hc
  exact List.drop_subset i t this

theorem trim_wrapped_self (s : Str) (i k : Nat) (mid : Str)
    (hmidh : mid.head? = some '\x7b') (hmidl : mid.getLast? = some '\x7d') :
    trimStr ((trimStr s).take i ++ mid ++ (trimStr s).drop k) =
      (trimStr s).take i ++ mid ++ (trimStr s).drop k := by
  have hmidne : mid ≠ [] := by
    intro he; rw [he] at hmidh; cases hmidh
  apply trimStr_eq_self
  · intro a hha
    cases hp : (trimStr s).take i with
    | nil =>
      rw [hp, List.nil_append] at hha
      cases mid with
      | nil => exact absurd rfl hmidne
      | cons m0 mt =>
        have : m0 = '\x7b' := by
          rw [show (m0 :: mt).head? = some m0 from rfl] at hmidh
          exact (Option.some.inj hmidh)
        rw [show ((m0 :: mt) ++ (trimStr s).drop k).head? = some m0 from rfl] at hha
        have ha' := Option.some.inj hha
        rw [← ha', this]
        decide
    | cons c p' =>
      rw [hp] at hha
      rw [show ((c :: p') ++ mid ++ (trimStr s).drop k).head? = some c from rfl] at hha
      have ha' := Option.some.inj hha
      have hc : (trimStr s).head? = some c := by
        have hpre : (c :: p') <+: trimStr s := hp ▸ take_pre i (trimStr s)
        rw [prefix_head_eq hpre (by simp)]
        rfl
      rw [← ha']
      exact trimStr_head_not s c hc
  · intro a hha
    cases hq : (trimStr s).drop k with
    | nil =>
      rw [hq, List.append_nil] at hha
      rw [List.getLast?_append_of_ne_nil _ hmidne, hmidl] at hha
      have ha' := Option.some.inj hha
      rw [← ha']
      decide
    | cons c q' =>
      rw [hq] at hha
      rw [List.getLast?_append_of_ne_nil _ (by simp : (c :: q') ≠ [])] at hha
      have hlast : (trimStr s).getLast? = some a := by
        have : trimStr s = (trimStr s).take k ++ (c :: q') := by
          rw [← hq, List.take_append_drop]
        rw [this, List.getLast?_append_of_ne_nil _ (by simp : (c :: q') ≠ [])]
        exact hha
      exact trimStr_getLast_not s a hlast

/-! ### Helper lemmas: assembling `build_cloze_sentence` -/

theorem build_of_strip_none {raw w : Str} {hint : Option Str}
    (hs : strip_existing_cloze_markup (trimStr raw) w = none) :
    build_cloze_sentence raw w hint =
      match wrap_with_cloze (trimStr raw) w with
      | .panicked => .panicked
      | .value none =>
        .value (match hint with
          | some hv => inject_anki_hint (trimStr raw) hv
          | none => trimStr raw, true)
      | .value (some wr) =>
        .value (match hint with
          | some hv => inject_anki_hint wr hv
          | none => wr, false) := by
  simp only [build_cloze_sentence, hs, Option.getD_none]

theorem build_of_strip_some {raw w base : Str} {hint : Option Str}
    (hs : strip_existing_cloze_markup (trimStr raw) w = some base) :
    build_cloze_sentence raw w hint =
      match wrap_with_cloze base w with
      | .panicked => .panicked
      | .value none =>
        .value (match hint with
          | some hv => inject_anki_hint (trimStr raw) hv
          | none => trimStr raw, true)
      | .value (some wr) =>
        .value (match hint with
          | some hv => inject_anki_hint wr hv
          | none => wr, false) := by
  simp only [build_cloze_sentence, hs, Option.getD_some]

/-- Claim C1, amended: composing is idempotent for sentences free of braces
whenever the word either occurs exactly in the trimmed sentence or has no
case-insensitive occurrence in it (the remaining case, a case-insensitive
match with different exact case, is precisely the counterexample: there the
second application renormalizes the wrapped segment to the needle's case).
Both applications also agree on whether the wrap-failure warning fired. -/
theorem c1_amended_idempotence (s w : Str) (hb : braceFree s = true)
    (h : containsSub (trimStr s) w = true ∨
      subFind (lowerStr w) (lowerStr (trimStr s)) = none) :
    ∃ r b, compose s w none = .value (r, b) ∧ compose r w none = .value (r, b) := by
  have hbt : braceFree (trimStr s) = true := braceFree_trimStr hb
  have htok := containsSub_tok_of_braceFree hbt
  cases hfind : subFind w (trimStr s) with
  | some i =>
    set t := trimStr s with hteq
    set r := t.take i ++ clozeTok ++ w ++ closeTok ++ t.drop (i + w.length) with hreq
    have hwrap : wrap_with_cloze t w = .value (some r) := wrap_exact htok hfind
    have hc1 : compose s w none = .value (r, false) := by
      rw [show compose s w none = build_cloze_sentence s w none from rfl,
        build_of_strip_none (strip_none_of_braceFree hbt w), hwrap]
    have hwb : braceFree w = true := by
      rw [braceFree, List.all_eq_true]
      intro c hc
      have := braceFree_mem hbt (mem_of_find hfind c hc)
      simp [this.1, this.2]
    have hpb : braceFree (t.take i) = true :=
      braceFree_of_subset hbt (fun c hc => List.take_subset _ _ hc)
    have hqb : braceFree (t.drop (i + w.length)) = true :=
      braceFree_of_subset hbt (fun c hc => List.drop_subset _ _ hc)
    have htrimr : trimStr r = r := by
      have e : r = t.take i ++ (clozeTok ++ w ++ closeTok) ++ t.drop (i + w.length) := by
        rw [hreq]; simp [List.append_assoc]
      rw [e, hteq]
      exact trim_wrapped_self s i (i + w.length) (clozeTok ++ w ++ closeTok) rfl
        (by rw [List.getLast?_append_of_ne_nil _ (by simp [closeTok])]; rfl)
    have hstripr : strip_existing_cloze_markup r w = some t := by
      rw [hreq, strip_wrapped _ _ _ _ hpb hwb hqb, take_drop_reconstruct hfind]
    have hstripr' : strip_existing_cloze_markup (trimStr r) w = some t := by
      rw [htrimr]; exact hstripr
    have hc2 : compose r w none = .value (r, false) := by
      rw [show compose r w none = build_cloze_sentence r w none from rfl,
        build_of_strip_some hstripr', hwrap]
    exact ⟨r, false, hc1, hc2⟩
  | none =>
    have hlow : subFind (lowerStr w) (lowerStr (trimStr s)) = none := by
      cases h with
      | inl hcont => rw [containsSub, hfind] at hcont; simp at hcont
      | inr hl => exact hl
    have hwrap : wrap_with_cloze (trimStr s) w = .value none := wrap_fail htok hfind hlow
    have hc1 : compose s w none = .value (trimStr s, true) := by
      rw [show compose s w none = build_cloze_sentence s w none from rfl,
        build_of_strip_none (strip_none_of_braceFree hbt w), hwrap]
    have htt : trimStr (trimStr s) = trimStr s := trimStr_idem s
    have hc2 : compose (trimStr s) w none = .value (trimStr s, true) := by
      rw [show compose (trimStr s) w none = build_cloze_sentence (trimStr s) w none from rfl,
        build_of_strip_none (show strip_existing_cloze_markup (trimStr (trimStr s)) w = none
          from by rw [htt]; exact strip_none_of_braceFree hbt w), htt,
        hwrap]
    exact ⟨trimStr s, true, hc1, hc2⟩

/-- Claim C1, amended, witness: a concrete brace-free sentence with an
exact-case occurrence of the word, on which `c1_amended_idempotence`
applies. -/
theorem c1_amended_witness :
    braceFree ['t', 'h', 'e', ' ', 'c', 'a', 't', ' ', 's', 'a', 't'] = true ∧
    ∃ r b,
      compose ['t', 'h', 'e', ' ', 'c', 'a', 't', ' ', 's', 'a', 't'] ['c', 'a', 't'] none =
        .value (r, b) ∧
      compose r ['c', 'a', 't'] none = .value (r, b) :=
  ⟨by decide,
    c1_amended_idempotence ['t', 'h', 'e', ' ', 'c', 'a', 't', ' ', 's', 'a', 't']
      ['c', 'a', 't'] (by decide) (Or.inl (by decide))⟩

/-- Claim C4, amended: fresh-wrap correctness holds for brace-free sentences
(so normalization cannot rewrite pre-existing markup) with the word present
verbatim in the trimmed sentence: the word's first occurrence is wrapped,
the result carries exactly one cloze marker whose interior is the word
itself, and undoing the inserted markup restores the trimmed sentence, so
all other text is preserved verbatim. -/
theorem c4_amended_fresh_wrap (s w : Str) (hb : braceFree s = true)
    (hw : containsSub (trimStr s) w = true) :
    ∃ i, subFind w (trimStr s) = some i ∧
      compose s w none = .value ((trimStr s).take i ++ clozeTok ++ w ++ closeTok ++
        (trimStr s).drop (i + w.length), false) ∧
      countOcc ((trimStr s).take i ++ clozeTok ++ w ++ closeTok ++
        (trimStr s).drop (i + w.length)) clozeTok = 1 ∧
      (trimStr s).take i ++ w ++ (trimStr s).drop (i + w.length) = trimStr s := by
  have hbt : braceFree (trimStr s) = true := braceFree_trimStr hb
  rw [containsSub] at hw
  cases hfind : subFind w (trimStr s) with
  | none => rw [hfind] at hw; simp at hw
  | some i =>
    refine ⟨i, rfl, ?_, ?_, take_drop_reconstruct hfind⟩
    · rw [show compose s w none = build_cloze_sentence s w none from rfl,
        build_of_strip_none (strip_none_of_braceFree hbt w),
        wrap_exact (containsSub_tok_of_braceFree hbt) hfind]
    · exact countOcc_result _ _ _
        (fun c hc => (braceFree_mem hbt (List.take_subset i _ hc)).1)
        (fun c hc => (braceFree_mem hbt (mem_of_find hfind c hc)).1)
        (fun c hc => (braceFree_mem hbt (List.drop_subset _ _ hc)).1)

/-- Claim C4, amended, witness: `compose` on the brace-free sentence
`green apples` with word `apples`, via `c4_amended_fresh_wrap`. -/
theorem c4_amended_witness :
    braceFree ['g', 'r', 'e', 'e', 'n', ' ', 'a', 'p', 'p', 'l', 'e', 's'] = true ∧
    containsSub (trimStr ['g', 'r', 'e', 'e', 'n', ' ', 'a', 'p', 'p', 'l', 'e', 's'])
      ['a', 'p', 'p', 'l', 'e', 's'] = true ∧
    ∃ i, subFind ['a', 'p', 'p', 'l', 'e', 's']
        (trimStr ['g', 'r', 'e', 'e', 'n', ' ', 'a', 'p', 'p', 'l', 'e', 's']) = some i ∧
      compose ['g', 'r', 'e', 'e', 'n', ' ', 'a', 'p', 'p', 'l', 'e', 's']
        ['a', 'p', 'p', 'l', 'e', 's'] none =
        .value ((trimStr ['g', 'r', 'e', 'e', 'n', ' ', 'a', 'p', 'p', 'l', 'e', 's']).take i ++
          clozeTok ++ ['a', 'p', 'p', 'l', 'e', 's'] ++ closeTok ++
          (trimStr ['g', 'r', 'e', 'e', 'n', ' ', 'a', 'p', 'p', 'l', 'e', 's']).drop
            (i + ['a', 'p', 'p', 'l', 'e', 's'].length), false) ∧
      countOcc ((trimStr ['g', 'r', 'e', 'e', 'n', ' ', 'a', 'p', 'p', 'l', 'e', 's']).take i ++
          clozeTok ++ ['a', 'p', 'p', 'l', 'e', 's'] ++ closeTok ++
          (trimStr ['g', 'r', 'e', 'e', 'n', ' ', 'a', 'p', 'p', 'l', 'e', 's']).drop
            (i + ['a', 'p', 'p', 'l', 'e', 's'].length)) clozeTok = 1 ∧
      (trimStr ['g', 'r', 'e', 'e', 'n', ' ', 'a', 'p', 'p', 'l', 'e', 's']).take i ++
          ['a', 'p', 'p', 'l', 'e', 's'] ++
          (trimStr ['g', 'r', 'e', 'e', 'n', ' ', 'a', 'p', 'p', 'l', 'e', 's']).drop
            (i + ['a', 'p', 'p', 'l', 'e', 's'].length) =
        trimStr ['g', 'r', 'e', 'e', 'n', ' ', 'a', 'p', 'p', 'l', 'e', 's'] :=
  ⟨by decide, by decide,
    c4_amended_fresh_wrap ['g', 'r', 'e', 'e', 'n', ' ', 'a', 'p', 'p', 'l', 'e', 's']
      ['a', 'p', 'p', 'l', 'e', 's'] (by decide) (by decide)⟩

/-- Claim C8, amended: when the word has neither an exact-case nor a
case-insensitive occurrence in the base sentence and the base is not
already wrapped (does not contain the cloze marker — without this condition
the already-wrapped guard returns the base unchanged silently, see the
counterexample), `compose` returns the trimmed original unchanged and the
wrap-failure warning fires rather than an error being raised. Since a
successful normalization always embeds the word in the base, these
hypotheses in fact force normalization to have left the sentence alone, so
the returned string is also the post-normalization base itself. -/
theorem c8_amended_wrap_failure (s w base : Str)
    (hbase : (strip_existing_cloze_markup (trimStr s) w).getD (trimStr s) = base)
    (h1 : containsSub base clozeTok = false)
    (h2 : subFind w base = none)
    (h3 : subFind (lowerStr w) (lowerStr base) = none) :
    compose s w none = .value (trimStr s, true) := by
  have hwrap : wrap_with_cloze base w = .value none := wrap_fail h1 h2 h3
  rw [show compose s w none = build_cloze_sentence s w none from rfl]
  simp only [build_cloze_sentence, hbase, hwrap]

/-- Claim C8, amended, witness: the unmatched word `missing` in the sentence
`Unrelated sentence`, via `c8_amended_wrap_failure`. -/
theorem c8_amended_witness :
    (strip_existing_cloze_markup
        (trimStr ['U', 'n', 'r', 'e', 'l', 'a', 't', 'e', 'd', ' ',
          's', 'e', 'n', 't', 'e', 'n', 'c', 'e']) ['m', 'i', 's', 's', 'i', 'n', 'g']).getD
        (trimStr ['U', 'n', 'r', 'e', 'l', 'a', 't', 'e', 'd', ' ',
          's', 'e', 'n', 't', 'e', 'n', 'c', 'e']) =
      ['U', 'n', 'r', 'e', 'l', 'a', 't', 'e', 'd', ' ',
        's', 'e', 'n', 't', 'e', 'n', 'c', 'e'] ∧
    compose ['U', 'n', 'r', 'e', 'l', 'a', 't', 'e', 'd', ' ',
        's', 'e', 'n', 't', 'e', 'n', 'c', 'e'] ['m', 'i', 's', 's', 'i', 'n', 'g'] none =
      .value (trimStr ['U', 'n', 'r', 'e', 'l', 'a', 't', 'e', 'd', ' ',
        's', 'e', 'n', 't', 'e', 'n', 'c', 'e'], true) :=
  ⟨by decide,
    c8_amended_wrap_failure
      ['U', 'n', 'r', 'e', 'l', 'a', 't', 'e', 'd', ' ', 's', 'e', 'n', 't', 'e', 'n', 'c', 'e']
      ['m', 'i', 's', 's', 'i', 'n', 'g']
      ['U', 'n', 'r', 'e', 'l', 'a', 't', 'e', 'd', ' ', 's', 'e', 'n', 't', 'e', 'n', 'c', 'e']
      (by decide) (by decide) (by decide) (by decide)⟩

/-! ### Helper lemmas: successful normalization embeds the word -/

theorem stripGo_true_embeds (w : Str) : ∀ (f : Nat) (s r : Str),
    stripGo w f s = some (r, true) → ∃ a b, r = a ++ w ++ b := by
  intro f
  induction f with
  | zero =>
    intro s r h
    cases s with
    | nil => rw [stripGo_nil] at h; simp at h
    | cons c cs => rw [show stripGo w 0 (c :: cs) = none from rfl] at h; cases h
  | succ f ih =>
    intro s r h
    cases s with
    | nil => rw [stripGo_nil] at h; simp at h
    | cons c cs =>
      rw [stripGo_cons] at h
      split at h
      · cases hsp : spanRest (c :: cs) with
        | none => rw [hsp] at h; cases h
        | some rest =>
          rw [hsp] at h
          have h' : Option.map (fun rb => (w ++ rb.1, true)) (stripGo w f rest) =
              some (r, true) := h
          cases hr : stripGo w f rest with
          | none => rw [hr] at h'; cases h'
          | some rb =>
            rw [hr] at h'
            simp only [Option.map_some', Option.some.injEq] at h'
            have hfst : w ++ rb.1 = r := congrArg Prod.fst h'
            exact ⟨[], rb.1, by rw [← hfst]; simp⟩
      · cases hr : stripGo w f cs with
        | none => rw [hr] at h; cases h
        | some rb =>
          rw [hr] at h
          simp only [Option.map_some', Option.some.injEq] at h
          have hfst : c :: rb.1 = r := congrArg Prod.fst h
          have hsnd : rb.2 = true := congrArg Prod.snd h
          have hcs : stripGo w f cs = some (rb.1, true) := by
            rw [hr, ← hsnd]
          obtain ⟨a, b, hab⟩ := ih cs rb.1 hcs
          exact ⟨c :: a, b, by rw [← hfst, hab]; simp⟩

theorem strip_some_contains {s w r : Str}
    (h : strip_existing_cloze_markup s w = some r) : containsSub r w = true := by
  rw [strip_existing_cloze_markup] at h
  cases hg : stripGo w s.length s with
  | none => rw [hg] at h; cases h
  | some rb =>
    rw [hg] at h
    cases rb with
    | mk r' bflag =>
      cases bflag with
      | false => simp at h
      | true =>
        have hr : r' = r := by simpa using h
        obtain ⟨a, b, hab⟩ := stripGo_true_embeds w s.length s r' hg
        rw [← hr, hab]
        exact containsSub_parts w a b

theorem wrap_some_of_contains {s w : Str} (h : containsSub s w = true) :
    ∃ r, wrap_with_cloze s w = .value (some r) := by
  by_cases hg : containsSub s clozeTok = true
  · exact ⟨s, wrap_guard hg w⟩
  · have hg' : containsSub s clozeTok = false := by simpa using hg
    rw [containsSub] at h
    cases hf : subFind w s with
    | none => rw [hf] at h; simp at h
    | some i => exact ⟨_, wrap_exact hg' hf⟩

/-- Claim C10: whenever normalization succeeds (the scanner replaced at least
one cloze span), the returned base contains the word as a literal
substring, so the subsequent wrap always yields a value (already-wrapped
guard or exact-case match — the case-insensitive fallback and its hazards
are never reached), and the wrap-failure warning branch of
`build_cloze_sentence` is unreachable: the warning flag is false. -/
theorem c10_normalized_implies_wrap (raw w base : Str) (hint : Option Str)
    (hs : strip_existing_cloze_markup (trimStr raw) w = some base) :
    containsSub base w = true ∧
    (∃ r, wrap_with_cloze base w = .value (some r)) ∧
    ∃ out, build_cloze_sentence raw w hint = .value (out, false) := by
  have hc := strip_some_contains hs
  obtain ⟨r, hr⟩ := wrap_some_of_contains hc
  refine ⟨hc, ⟨r, hr⟩, ?_⟩
  rw [build_of_strip_some hs, hr]
  cases hint with
  | none => exact ⟨r, rfl⟩
  | some hv => exact ⟨inject_anki_hint r hv, rfl⟩

/-- Claim C10, witness: normalization of a `c2` span succeeds concretely and
`c10_normalized_implies_wrap` applies. -/
theorem c10_witness :
    strip_existing_cloze_markup
      (trimStr ['\x7b', '\x7b', 'c', '2', ':', ':', 'q', '\x7d', '\x7d', ' ', 'r', 'u', 'n'])
      ['r', 'u', 'n'] = some ['r', 'u', 'n', ' ', 'r', 'u', 'n'] ∧
    (containsSub ['r', 'u', 'n', ' ', 'r', 'u', 'n'] ['r', 'u', 'n'] = true ∧
      (∃ r, wrap_with_cloze ['r', 'u', 'n', ' ', 'r', 'u', 'n'] ['r', 'u', 'n'] =
        .value (some r)) ∧
      ∃ out, build_cloze_sentence
        ['\x7b', '\x7b', 'c', '2', ':', ':', 'q', '\x7d', '\x7d', ' ', 'r', 'u', 'n']
        ['r', 'u', 'n'] none = .value (out, false)) :=
  ⟨by decide,
    c10_normalized_implies_wrap
      ['\x7b', '\x7b', 'c', '2', ':', ':', 'q', '\x7d', '\x7d', ' ', 'r', 'u', 'n']
      ['r', 'u', 'n'] ['r', 'u', 'n', ' ', 'r', 'u', 'n'] none (by decide)⟩

/-! ### Helper lemmas: the case-insensitive branch on ASCII input -/

theorem subFind_nil_pat (hay : Str) : subFind [] hay = some 0 := by
  cases hay with
  | nil => rfl
  | cons c t => rw [subFind_cons, if_pos (by simp [List.isPrefixOf])]

theorem prefix_take_eq {l₁ l₂ : Str} (h : l₁ <+: l₂) : l₂.take l₁.length = l₁ := by
  obtain ⟨u, rfl⟩ := h
  exact List.take_left l₁ u

theorem asciiStr_trimStr {s : Str} (h : asciiStr s = true) :
    asciiStr (trimStr s) = true :=
  asciiStr_of_subset h (fun c hc =>
    (trimLeft_suffix s).subset ((prefix_trimRight (trimLeft s)).subset hc))

theorem inject_empty {hint : Str} (h : (trimStr hint).isEmpty = true) (s : Str) :
    inject_anki_hint s hint = s := by
  rw [inject_anki_hint, if_pos h]

theorem countOcc_zero_of_noOpen {a : Str} (ha : ∀ c ∈ a, c ≠ '\x7b') :
    countOcc a clozeTok = 0 := by
  have h2 := countOcc_skip a ha []
  rw [List.append_nil] at h2
  rw [h2]
  decide

theorem wrap_ci_ascii {s w : Str} {j : Nat}
    (hs : asciiStr s = true) (hw : asciiStr w = true)
    (h1 : containsSub s clozeTok = false)
    (h2 : subFind w s = none)
    (h3 : subFind (lowerStr w) (lowerStr s) = some j) :
    wrap_with_cloze s w = .value (some (s.take j ++ clozeTok ++
      ((s.drop j).take w.length) ++ closeTok ++ s.drop (j + w.length))) ∧
    j + w.length ≤ s.length ∧
    ((s.drop j).take w.length).length = w.length ∧
    lowerStr ((s.drop j).take w.length) = lowerStr w := by
  have hwne : w ≠ [] := by
    intro he; subst he; rw [subFind_nil_pat] at h2; cases h2
  have hlens : (lowerStr s).length = s.length := lowerStr_length_ascii s hs
  have hlenw : (lowerStr w).length = w.length := lowerStr_length_ascii w hw
  have hspec := subFind_some_spec (lowerStr w) (lowerStr s) j h3
  have hjle : j ≤ s.length := by rw [← hlens]; exact hspec.2
  have hpre : lowerStr w <+: (lowerStr s).drop j := hspec.1
  have hbound : j + w.length ≤ s.length := by
    have hlen2 := hpre.length_le
    rw [List.length_drop] at hlen2
    omega
  have hlsa : asciiStr (lowerStr s) = true := lowerStr_ascii_out s hs
  have hpos : utf8Len ((lowerStr s).take j) = j := by
    rw [utf8Len_ascii _ (asciiStr_of_subset hlsa (fun c hc => List.take_subset _ _ hc)),
      List.length_take]
    omega
  have hbb : byteBoundary s j = some j := byteBoundary_ascii s hs j hjle
  have hadv : advance_by_chars s j w.length = j + w.length := by
    rw [advance_by_chars, if_neg (fun h0 => hwne (List.length_eq_zero.mp h0)),
      min_eq_left hbound]
  have hseglen : ((s.drop j).take w.length).length = w.length := by
    rw [List.length_take, List.length_drop]
    omega
  have hseglower : lowerStr ((s.drop j).take w.length) = lowerStr w := by
    have hdropascii : asciiStr (s.drop j) = true :=
      asciiStr_of_subset hs (fun c hc => List.drop_subset _ _ hc)
    rw [lowerStr_take_ascii _ hdropascii, lowerStr_drop_ascii s hs, ← hlenw]
    exact prefix_take_eq hpre
  refine ⟨?_, hbound, hseglen, hseglower⟩
  rw [wrap_with_cloze, if_neg (by simp [h1]), h2]
  show (match subFind (lowerStr w) (lowerStr s) with
    | none => Panics.value none
    | some j =>
      match byteBoundary s (utf8Len ((lowerStr s).take j)) with
      | none => Panics.panicked
      | some i =>
        Panics.value (some (s.take i ++ clozeTok ++
          ((s.drop i).take (advance_by_chars s i w.length - i)) ++ closeTok ++
          s.drop (advance_by_chars s i w.length)))) = _
  rw [h3]
  show (match byteBoundary s (utf8Len ((lowerStr s).take j)) with
    | none => Panics.panicked
    | some i =>
      Panics.value (some (s.take i ++ clozeTok ++
        ((s.drop i).take (advance_by_chars s i w.length - i)) ++ closeTok ++
        s.drop (advance_by_chars s i w.length)))) =
    Panics.value (some (s.take j ++ clozeTok ++ ((s.drop j).take w.length) ++ closeTok ++
      s.drop (j + w.length)))
  rw [hpos, hbb]
  show Panics.value (some (s.take j ++ clozeTok ++
      ((s.drop j).take (advance_by_chars s j w.length - j)) ++ closeTok ++
      s.drop (advance_by_chars s j w.length))) =
    Panics.value (some (s.take j ++ clozeTok ++ ((s.drop j).take w.length) ++ closeTok ++
      s.drop (j + w.length)))
  rw [hadv, show j + w.length - j = w.length from by omega]

theorem wrap_no_panic_ascii {s w : Str} (hs : asciiStr s = true)
    (hw : asciiStr w = true) : ∃ o, wrap_with_cloze s w = .value o := by
  by_cases hg : containsSub s clozeTok = true
  · exact ⟨some s, wrap_guard hg w⟩
  · have hg' : containsSub s clozeTok = false := by simpa using hg
    cases hf : subFind w s with
    | some i => exact ⟨_, wrap_exact hg' hf⟩
    | none =>
      cases hl : subFind (lowerStr w) (lowerStr s) with
      | none => exact ⟨none, wrap_fail hg' hf hl⟩
      | some j => exact ⟨_, (wrap_ci_ascii hs hw hg' hf hl).1⟩

/-! ### Helper lemmas: unclosed spans abort normalization -/

theorem spanGo_mono_succ : ∀ (s : Str) (d : Nat), 1 ≤ d →
    (spanGo s (d + 1)).isSome = true → (spanGo s d).isSome = true
  | [], d, hd, h => by rw [show spanGo [] (d + 1) = none from rfl] at h; simp at h
  | c :: cs, d, hd, h => by
    rw [spanGo_cons] at h ⊢
    by_cases hb : c = '\x7b'
    · rw [if_pos hb] at h ⊢
      exact spanGo_mono_succ cs (d + 1) (by omega) h
    · rw [if_neg hb] at h ⊢
      by_cases hb2 : c = '\x7d'
      · rw [if_pos hb2] at h ⊢
        by_cases hd1 : d = 1
        · rw [if_pos hd1]; rfl
        · rw [if_neg hd1]
          rw [if_neg (show ¬(d + 1 = 1) from by omega)] at h
          rw [show d + 1 - 1 = (d - 1) + 1 from by omega] at h
          exact spanGo_mono_succ cs (d - 1) (by omega) h
      · rw [if_neg hb2] at h ⊢
        exact spanGo_mono_succ cs d hd h

theorem spanGo_mono_le : ∀ (k : Nat) (s : Str) (d' : Nat), 1 ≤ d' →
    (spanGo s (d' + k)).isSome = true → (spanGo s d').isSome = true := by
  intro k
  induction k with
  | zero => intro s d' h1 h3; simpa using h3
  | succ k ih =>
    intro s d' h1 h3
    apply ih s d' h1
    apply spanGo_mono_succ s (d' + k) (by omega)
    rw [show d' + k + 1 = d' + (k + 1) from by omega]
    exact h3

theorem spanGo_append_inner : ∀ (a u : Str) (d : Nat) (rest : Str), 1 ≤ d →
    spanGo (a ++ u) d = some rest → rest.length < u.length →
    ∃ d', 1 ≤ d' ∧ spanGo u d' = some rest
  | [], u, d, rest, hd, h, hl => ⟨d, hd, by simpa using h⟩
  | c :: a', u, d, rest, hd, h, hl => by
    rw [show ((c :: a') ++ u) = c :: (a' ++ u) from rfl, spanGo_cons] at h
    by_cases hb : c = '\x7b'
    · rw [if_pos hb] at h
      exact spanGo_append_inner a' u (d + 1) rest (by omega) h hl
    · rw [if_neg hb] at h
      by_cases hb2 : c = '\x7d'
      · rw [if_pos hb2] at h
        by_cases hd1 : d = 1
        · rw [if_pos hd1] at h
          exfalso
          have he := Option.some.inj h
          have : rest.length = a'.length + u.length := by rw [← he]; simp
          omega
        · rw [if_neg hd1] at h
          exact spanGo_append_inner a' u (d - 1) rest (by omega) h hl
      · rw [if_neg hb2] at h
        exact spanGo_append_inner a' u d rest hd h hl

theorem spanRest_inner_isSome {cs rest : Str}
    (hclose : spanGo ('\x7b' :: cs) 0 = some rest) (i : Nat) (hi0 : 0 < i)
    (hilt : i < ('\x7b' :: cs).length - rest.length)
    (hhead : (('\x7b' :: cs).drop i).head? = some '\x7b') :
    (spanRest (('\x7b' :: cs).drop i)).isSome = true := by
  have hstep : spanGo cs 1 = some rest := by
    rw [show spanGo ('\x7b' :: cs) 0 = spanGo cs 1 from rfl] at hclose
    exact hclose
  have hrlt : rest.length < ('\x7b' :: cs).length := spanGo_some_length _ _ _ hclose
  have hsplit : cs = cs.take (i - 1) ++ cs.drop (i - 1) := (List.take_append_drop _ _).symm
  have hdropi : ('\x7b' :: cs).drop i = cs.drop (i - 1) := by
    cases i with
    | zero => omega
    | succ i' => simp [List.drop_succ_cons]
  have hrlen : rest.length < (cs.drop (i - 1)).length := by
    rw [List.length_drop]
    simp only [List.length_cons] at hilt hrlt
    omega
  obtain ⟨d', hd', hu'⟩ :=
    spanGo_append_inner (cs.take (i - 1)) (cs.drop (i - 1)) 1 rest le_rfl
      (by rw [← hsplit]; exact hstep) hrlen
  have huhead : (cs.drop (i - 1)).head? = some '\x7b' := by
    rw [← hdropi]; exact hhead
  cases hu2 : cs.drop (i - 1) with
  | nil => rw [hu2] at huhead; cases huhead
  | cons u0 u' =>
    have hu0 : u0 = '\x7b' := by
      rw [hu2] at huhead
      exact Option.some.inj huhead
    rw [hu2, hu0] at hu'
    have hu'' : spanGo u' (d' + 1) = some rest := by
      rw [show spanGo ('\x7b' :: u') d' = spanGo u' (d' + 1) from rfl] at hu'
      exact hu'
    have hsome1 : (spanGo u' (d' + 1)).isSome = true := by rw [hu'']; rfl
    have hsome2 : (spanGo u' 1).isSome = true := by
      apply spanGo_mono_le d' u' 1 le_rfl
      rw [show 1 + d' = d' + 1 from by omega]
      exact hsome1
    rw [hdropi, hu2, hu0, spanRest,
      show spanGo ('\x7b' :: u') 0 = spanGo u' 1 from rfl]
    exact hsome2

theorem stripGo_none_of_unclosed (w : Str) : ∀ (f : Nat) (s : Str),
    s.length ≤ f →
    (∃ i, i < s.length ∧ clozeCandidate (s.drop i) = true ∧ spanRest (s.drop i) = none) →
    stripGo w f s = none := by
  intro f
  induction f with
  | zero =>
    intro s hf hex
    obtain ⟨i, hi, _, _⟩ := hex
    omega
  | succ f ih =>
    intro s hf hex
    obtain ⟨i, hi, hcand, hnone⟩ := hex
    cases s with
    | nil => simp at hi
    | cons c cs =>
      by_cases hc : clozeCandidate (c :: cs) = true
      · rw [stripGo_cons, if_pos hc]
        cases hsp : spanRest (c :: cs) with
        | none => rfl
        | some rest =>
          have hczero : c = '\x7b' := by
            obtain ⟨t, ht⟩ := clozeCandidate_head hc
            exact (List.cons.injEq c cs '\x7b' t ▸ ht).1
          subst hczero
          cases Nat.eq_zero_or_pos i with
          | inl h0 =>
            subst h0
            rw [List.drop_zero] at hnone
            rw [hnone] at hsp
            cases hsp
          | inr hpos =>
            obtain ⟨k, hk0, hkeq⟩ := spanGo_some_suffix _ _ _ hsp
            have hrlt2 : rest.length < cs.length + 1 := by
              simpa using spanGo_some_length _ _ _ hsp
            by_cases hik : i < k
            · exfalso
              have hhead : (('\x7b' :: cs).drop i).head? = some '\x7b' := by
                obtain ⟨t, ht⟩ := clozeCandidate_head hcand
                rw [ht]; rfl
              have hilt : i < ('\x7b' :: cs).length - rest.length := by
                rw [hkeq, List.length_drop]
                omega
              have hin := spanRest_inner_isSome
                (show spanGo ('\x7b' :: cs) 0 = some rest from hsp) i hpos hilt hhead
              rw [hnone] at hin
              simp at hin
            · push_neg at hik
              show Option.map (fun rb => (w ++ rb.1, true)) (stripGo w f rest) = none
              have hreq : rest.drop (i - k) = ('\x7b' :: cs).drop i := by
                rw [hkeq, List.drop_drop, show k + (i - k) = i from by omega]
              have hrnone : stripGo w f rest = none := by
                apply ih rest
                · have hf2 : cs.length + 1 ≤ f + 1 := by simpa using hf
                  omega
                · refine ⟨i - k, ?_, ?_, ?_⟩
                  · rw [hkeq, List.length_drop]
                    omega
                  · rw [hreq]; exact hcand
                  · rw [hreq]; exact hnone
              rw [hrnone]
              rfl
      · rw [stripGo_cons, if_neg hc]
        have hi1 : 1 ≤ i := by
          cases Nat.eq_zero_or_pos i with
          | inl h0 =>
            subst h0
            rw [List.drop_zero] at hcand
            exact absurd hcand hc
          | inr h => exact h
        have hdropeq : cs.drop (i - 1) = (c :: cs).drop i := by
          cases i with
          | zero => omega
          | succ i' => simp [List.drop_succ_cons]
        have hcs : stripGo w f cs = none := by
          apply ih cs
          · simp only [List.length_cons] at hf
            omega
          · refine ⟨i - 1, ?_, ?_, ?_⟩
            · simp only [List.length_cons] at hi
              omega
            · rw [hdropeq]; exact hcand
            · rw [hdropeq]; exact hnone
        rw [hcs]
        rfl

theorem strip_none_of_unclosed {s : Str} (w : Str)
    (h : ∃ i, i < s.length ∧ clozeCandidate (s.drop i) = true ∧
      spanRest (s.drop i) = none) :
    strip_existing_cloze_markup s w = none := by
  rw [strip_existing_cloze_markup, stripGo_none_of_unclosed w s.length s le_rfl h]

/-- Claim C7, amended: for every sentence whose trimmed form contains a cloze
candidate whose brace depth never returns to zero, normalization aborts
without any partial rewrite (the scanner returns `none`, so Step B's base is
the whole trimmed sentence), and `compose` completes without panicking —
the latter provided the sentence and word are ASCII, because for non-ASCII
input the case-insensitive wrap fallback can still fault on a byte offset
taken from the lowercased string (see the counterexample and C5). -/
theorem c7_amended_unclosed_fallback (s w : Str) (hint : Option Str)
    (hun : ∃ i, i < (trimStr s).length ∧ clozeCandidate ((trimStr s).drop i) = true ∧
      spanRest ((trimStr s).drop i) = none) :
    strip_existing_cloze_markup (trimStr s) w = none ∧
    (asciiStr s = true → asciiStr w = true →
      ∃ out, build_cloze_sentence s w hint = .value out) := by
  have hstrip := strip_none_of_unclosed w hun
  refine ⟨hstrip, fun hsa hwa => ?_⟩
  obtain ⟨o, ho⟩ := wrap_no_panic_ascii (asciiStr_trimStr hsa) hwa
  rw [build_of_strip_none hstrip, ho]
  cases o with
  | none => exact ⟨_, rfl⟩
  | some wr => exact ⟨_, rfl⟩

/-- Claim C7, amended, witness: the claim's own example, an unclosed span at
index 0 of `(double-brace)c1::broken text`; `compose` neither rewrites it nor
panics, via `c7_amended_unclosed_fallback`. -/
theorem c7_amended_witness :
    strip_existing_cloze_markup
      (trimStr (clozeTok ++ ['b', 'r', 'o', 'k', 'e', 'n', ' ', 't', 'e', 'x', 't']))
      ['w', 'o', 'r', 'd'] = none ∧
    (asciiStr (clozeTok ++ ['b', 'r', 'o', 'k', 'e', 'n', ' ', 't', 'e', 'x', 't']) = true →
      asciiStr ['w', 'o', 'r', 'd'] = true →
      ∃ out, build_cloze_sentence
        (clozeTok ++ ['b', 'r', 'o', 'k', 'e', 'n', ' ', 't', 'e', 'x', 't'])
        ['w', 'o', 'r', 'd'] none = .value out) :=
  c7_amended_unclosed_fallback
    (clozeTok ++ ['b', 'r', 'o', 'k', 'e', 'n', ' ', 't', 'e', 'x', 't'])
    ['w', 'o', 'r', 'd'] none ⟨0, by decide, by decide, by decide⟩

/-! ### Helper lemmas: fenced-block extraction -/

theorem splitInc_cons_not_nl {c : Char} (hc : ¬(c = '\n')) (cs : Str) :
    splitInclusiveNL (c :: cs) =
      (c :: ((splitInclusiveNL cs).headD [])) :: (splitInclusiveNL cs).tail := by
  rw [show splitInclusiveNL (c :: cs) =
    (if c = '\n' then [c] :: splitInclusiveNL cs
     else match splitInclusiveNL cs with
          | [] => [[c]]
          | l :: ls => (c :: l) :: ls) from rfl, if_neg hc]
  cases splitInclusiveNL cs <;> rfl

theorem prefix_splitInc_head : ∀ (t : Str), (splitInclusiveNL t).headD [] <+: t
  | [] => by simp [splitInclusiveNL]
  | c :: cs => by
    by_cases hc : c = '\n'
    · subst hc
      rw [show splitInclusiveNL ('\n' :: cs) = ['\n'] :: splitInclusiveNL cs from rfl]
      exact ⟨cs, rfl⟩
    · rw [splitInc_cons_not_nl hc]
      simp only [List.headD_cons]
      exact (List.cons_prefix_cons).mpr ⟨rfl, prefix_splitInc_head cs⟩

theorem prefix_stripLineEnd (l : Str) : stripLineEnd l <+: l := by
  rw [stripLineEnd]
  split
  · show (if ((l.dropLast).getLast? = some '\x0D') then (l.dropLast).dropLast
      else l.dropLast) <+: l
    split
    · exact (dropLast_pre _).trans (dropLast_pre _)
    · exact dropLast_pre _
  · exact List.prefix_rfl

theorem stripLineEnd_fence (u : Str) :
    ∃ v, stripLineEnd (fence3 ++ u) = fence3 ++ v := by
  rw [stripLineEnd]
  split
  · next hnl =>
    have hune : u ≠ [] := by
      intro he
      subst he
      simp [fence3] at hnl
    show ∃ v, (if (((fence3 ++ u).dropLast).getLast? = some '\x0D') then
        ((fence3 ++ u).dropLast).dropLast
      else (fence3 ++ u).dropLast) = fence3 ++ v
    rw [List.dropLast_append_of_ne_nil _ hune]
    split
    · next hcr =>
      by_cases hdu : u.dropLast = []
      · rw [hdu] at hcr
        simp [fence3] at hcr
      · rw [List.dropLast_append_of_ne_nil _ hdu]
        exact ⟨(u.dropLast).dropLast, rfl⟩
    · exact ⟨u.dropLast, rfl⟩
  · exact ⟨u, rfl⟩

theorem rustLines_fence_mp {t f : Str} {rest : List Str}
    (hl : rustLines t = f :: rest) (hf : fence3.isPrefixOf f = true) :
    fence3.isPrefixOf t = true := by
  rw [rustLines] at hl
  cases hsp : splitInclusiveNL t with
  | nil => rw [hsp] at hl; cases hl
  | cons ch chs =>
    rw [hsp, List.map_cons] at hl
    have hfch : stripLineEnd ch = f := (List.cons.injEq _ _ _ _ ▸ hl).1
    have hpre : f <+: t := by
      rw [← hfch]
      refine (prefix_stripLineEnd ch).trans ?_
      have : (splitInclusiveNL t).headD [] = ch := by rw [hsp]; rfl
      rw [← this]
      exact prefix_splitInc_head t
    exact isPrefixOf_iff_pre.mpr ((isPrefixOf_iff_pre.mp hf).trans hpre)

theorem rustLines_fence_mpr {t : Str} (h : fence3.isPrefixOf t = true) :
    ∃ f rest, rustLines t = f :: rest ∧ fence3.isPrefixOf f = true := by
  obtain ⟨u, hu⟩ := isPrefixOf_iff_pre.mp h
  subst hu
  have h1 : splitInclusiveNL (fence3 ++ u) =
      ('\x60' :: '\x60' :: '\x60' :: ((splitInclusiveNL u).headD [])) ::
        (splitInclusiveNL u).tail := by
    rw [show fence3 ++ u = '\x60' :: '\x60' :: '\x60' :: u from rfl,
      splitInc_cons_not_nl (by decide), splitInc_cons_not_nl (by decide),
      splitInc_cons_not_nl (by decide)]
    simp
  rw [rustLines, h1, List.map_cons]
  refine ⟨_, _, rfl, ?_⟩
  obtain ⟨v, hv⟩ := stripLineEnd_fence ((splitInclusiveNL u).headD [])
  rw [show ('\x60' :: '\x60' :: '\x60' :: ((splitInclusiveNL u).headD [])) =
    fence3 ++ ((splitInclusiveNL u).headD []) from rfl, hv]
  exact isPrefixOf_iff_pre.mpr (List.prefix_append _ _)

/-- Claim C9, amended: the claim's description of payload extraction is
exactly what the code computes, except for the one edge where nothing at
all follows the opening fence line: there the code falls back to the
trimmed raw text rather than producing the empty join (see the
counterexample). With that case excluded — at least one line after the
opening fence, or an unfenced input — the selected payload equals the
claim's algorithm verbatim. -/
theorem c9_amended_extraction (raw : Str)
    (h : fence3.isPrefixOf (trimStr raw) = true → (rustLines (trimStr raw)).length ≠ 1) :
    parse_json_payload raw = spec_extracted_payload raw := by
  by_cases hf : fence3.isPrefixOf (trimStr raw) = true
  · obtain ⟨f, rest, hl, hfp⟩ := rustLines_fence_mpr hf
    have hrest : rest ≠ [] := by
      intro he
      apply h hf
      rw [hl, he]
      rfl
    rw [parse_json_payload, spec_extracted_payload]
    simp only [hf, if_true, hl, hfp]
    rw [extract_json_block, hl]
    simp only [hfp, if_true]
    cases rest with
    | nil => exact absurd rfl hrest
    | cons r0 rs => rfl
  · rw [parse_json_payload, spec_extracted_payload, if_neg hf]
    cases hls : rustLines (trimStr raw) with
    | nil => rfl
    | cons f rest =>
      show trimStr raw = if fence3.isPrefixOf f then
        joinNL
          (match rest.getLast? with
           | some last =>
             if fence3.isPrefixOf (trimStr last) then rest.dropLast else rest
           | none => rest)
        else trimStr raw
      by_cases hfp : fence3.isPrefixOf f = true
      · exact absurd (rustLines_fence_mp hls hfp) hf
      · rw [if_neg hfp]

/-- Claim C9, amended, witness: a fenced payload with a content line and a
closing fence; the selected payload equals the claim's algorithm, via
`c9_amended_extraction`. -/
theorem c9_amended_witness :
    parse_json_payload (fence3 ++ ['j', 's', 'o', 'n', '\n', '\x7b', '\x7d', '\n'] ++ fence3) =
      spec_extracted_payload
        (fence3 ++ ['j', 's', 'o', 'n', '\n', '\x7b', '\x7d', '\n'] ++ fence3) :=
  c9_amended_extraction (fence3 ++ ['j', 's', 'o', 'n', '\n', '\x7b', '\x7d', '\n'] ++ fence3)
    (by decide)

theorem c3_success_aux (s w : Str) (h : Option Str)
    (hbt : braceFree (trimStr s) = true)
    (hhb : ∀ hv, h = some hv → braceFree hv = true)
    (i k : Nat) (ans0 : Str)
    (hans : ∀ c ∈ ans0, c ∈ trimStr s)
    (hwrap : wrap_with_cloze (trimStr s) w =
      .value (some ((trimStr s).take i ++ clozeTok ++ ans0 ++ closeTok ++
        (trimStr s).drop k))) :
    ∃ r warned, compose s w h = .value (r, warned) ∧
      (warned = false ∧ countOcc r clozeTok = 1 ∧
        ∃ pre a post,
          (∀ c ∈ a, c ≠ '\x7b' ∧ c ≠ '\x7d') ∧
          ((∃ hv, h = some hv ∧ (trimStr hv).isEmpty = false ∧
              containsSub a sepTok = false ∧
              r = pre ++ clozeTok ++ (a ++ sepTok ++ trimStr hv) ++ closeTok ++ post) ∨
            r = pre ++ clozeTok ++ a ++ closeTok ++ post)) := by
  have hA : ∀ c ∈ ans0, c ≠ '\x7b' ∧ c ≠ '\x7d' :=
    fun c hc => braceFree_mem hbt (hans c hc)
  have hp2 : ∀ c ∈ (trimStr s).take i, c ≠ '\x7b' :=
    fun c hc => (braceFree_mem hbt (List.take_subset _ _ hc)).1
  have hq2 : ∀ c ∈ (trimStr s).drop k, c ≠ '\x7b' :=
    fun c hc => (braceFree_mem hbt (List.drop_subset _ _ hc)).1
  have hcount0 : countOcc ((trimStr s).take i ++ clozeTok ++ ans0 ++ closeTok ++
      (trimStr s).drop k) clozeTok = 1 :=
    countOcc_result _ _ _ hp2 (fun c hc => (hA c hc).1) hq2
  cases h with
  | none =>
    refine ⟨_, false, ?_, rfl, hcount0, (trimStr s).take i, ans0, (trimStr s).drop k,
      hA, Or.inr rfl⟩
    rw [show compose s w none = build_cloze_sentence s w none from rfl,
      build_of_strip_none (strip_none_of_braceFree hbt w), hwrap]
  | some hv =>
    have hvb : braceFree hv = true := hhb hv rfl
    by_cases hemp : (trimStr hv).isEmpty = true
    · refine ⟨_, false, ?_, rfl, hcount0, (trimStr s).take i, ans0, (trimStr s).drop k,
        hA, Or.inr rfl⟩
      rw [show compose s w (some hv) = build_cloze_sentence s w (some hv) from rfl,
        build_of_strip_none (strip_none_of_braceFree hbt w), hwrap]
      show Panics.value (inject_anki_hint _ hv, false) = _
      rw [inject_empty hemp]
    · have hemp' : (trimStr hv).isEmpty = false := by
        cases he : (trimStr hv).isEmpty
        · rfl
        · exact absurd he hemp
      have hinj := inject_wrapped ((trimStr s).take i) ans0 ((trimStr s).drop k) hv
        hp2 hA hemp'
      by_cases hsep : containsSub ans0 sepTok = true
      · rw [if_pos hsep] at hinj
        refine ⟨_, false, ?_, rfl, hcount0, (trimStr s).take i, ans0, (trimStr s).drop k,
          hA, Or.inr rfl⟩
        rw [show compose s w (some hv) = build_cloze_sentence s w (some hv) from rfl,
          build_of_strip_none (strip_none_of_braceFree hbt w), hwrap]
        show Panics.value (inject_anki_hint _ hv, false) = _
        rw [hinj]
      · have hsep' : containsSub ans0 sepTok = false := by
          cases he : containsSub ans0 sepTok
          · rfl
          · exact absurd he hsep
        rw [if_neg hsep] at hinj
        have hmid : ∀ c ∈ ans0 ++ sepTok ++ trimStr hv, c ≠ '\x7b' := by
          intro c hc
          rcases List.mem_append.mp hc with hc1 | hc2
          · rcases List.mem_append.mp hc1 with hc3 | hc4
            · exact (hA c hc3).1
            · simp only [sepTok, List.mem_cons, List.mem_singleton] at hc4
              rcases hc4 with hc5 | hc5 | hc5
              · rw [hc5]; decide
              · rw [hc5]; decide
              · simp at hc5
          · exact (braceFree_mem (braceFree_trimStr hvb) hc2).1
        refine ⟨_, false, ?_, rfl,
          countOcc_result _ _ _ hp2 hmid hq2,
          (trimStr s).take i, ans0, (trimStr s).drop k, hA,
          Or.inl ⟨hv, rfl, hemp', hsep', rfl⟩⟩
        rw [show compose s w (some hv) = build_cloze_sentence s w (some hv) from rfl,
          build_of_strip_none (strip_none_of_braceFree hbt w), hwrap]
        show Panics.value (inject_anki_hint _ hv, false) = _
        rw [hinj]

/-- Claim C3, amended: for brace-free ASCII sentences, ASCII words and
brace-free hints, every invocation of `compose` either produces a string
with exactly one cloze marker closed by its brace pair — brace-free
interior, so the closing pair matches at depth zero — whose interior is the
wrapped answer, extended by a single spliced `::` separator and the trimmed
hint exactly when a nonempty hint was supplied and the interior held no
`::` yet; or, only in the wrap-failure case, returns the trimmed input
unchanged with no marker and with the warning flag set. Without these
restrictions the claim fails: pre-existing malformed markup survives the
already-wrapped guard with multiple markers and no warning (see the
counterexample), and non-ASCII input can panic (see C5). -/
theorem c3_amended_output_guarantee (s w : Str) (h : Option Str)
    (hb : braceFree s = true) (hsa : asciiStr s = true) (hwa : asciiStr w = true)
    (hhb : ∀ hv, h = some hv → braceFree hv = true) :
    ∃ r warned, compose s w h = .value (r, warned) ∧
      ((warned = false ∧ countOcc r clozeTok = 1 ∧
        ∃ pre a post,
          (∀ c ∈ a, c ≠ '\x7b' ∧ c ≠ '\x7d') ∧
          ((∃ hv, h = some hv ∧ (trimStr hv).isEmpty = false ∧
              containsSub a sepTok = false ∧
              r = pre ++ clozeTok ++ (a ++ sepTok ++ trimStr hv) ++ closeTok ++ post) ∨
            r = pre ++ clozeTok ++ a ++ closeTok ++ post)) ∨
       (warned = true ∧ r = trimStr s ∧ countOcc r clozeTok = 0)) := by
  have hbt := braceFree_trimStr hb
  have hta := asciiStr_trimStr hsa
  have htok := containsSub_tok_of_braceFree hbt
  cases hfind : subFind w (trimStr s) with
  | some i =>
    obtain ⟨r, warned, hc, hrest⟩ := c3_success_aux s w h hbt hhb i (i + w.length) w
      (mem_of_find hfind) (wrap_exact htok hfind)
    exact ⟨r, warned, hc, Or.inl hrest⟩
  | none =>
    cases hlow : subFind (lowerStr w) (lowerStr (trimStr s)) with
    | some j =>
      obtain ⟨hwrap, _, _, _⟩ := wrap_ci_ascii hta hwa htok hfind hlow
      obtain ⟨r, warned, hc, hrest⟩ := c3_success_aux s w h hbt hhb j (j + w.length)
        (((trimStr s).drop j).take w.length)
        (fun c hc => List.drop_subset _ _ (List.take_subset _ _ hc))
        hwrap
      exact ⟨r, warned, hc, Or.inl hrest⟩
    | none =>
      have hwrap := wrap_fail htok hfind hlow
      refine ⟨trimStr s, true, ?_, Or.inr ⟨rfl, rfl, countOcc_zero_of_noOpen
        (fun c hc => (braceFree_mem hbt hc).1)⟩⟩
      rw [show compose s w h = build_cloze_sentence s w h from rfl,
        build_of_strip_none (strip_none_of_braceFree hbt w), hwrap]
      cases h with
      | none => rfl
      | some hv =>
        show Panics.value (inject_anki_hint _ hv, true) = _
        rw [inject_no_tok htok hv]

/-- Claim C3, amended, witness: `compose` on the sentence `I saw a dog`,
word `dog` and hint `animal`, via `c3_amended_output_guarantee`. -/
theorem c3_amended_witness :
    ∃ r warned,
      compose ['I', ' ', 's', 'a', 'w', ' ', 'a', ' ', 'd', 'o', 'g'] ['d', 'o', 'g']
        (some ['a', 'n', 'i', 'm', 'a', 'l']) = .value (r, warned) ∧
      ((warned = false ∧ countOcc r clozeTok = 1 ∧
        ∃ pre a post,
          (∀ c ∈ a, c ≠ '\x7b' ∧ c ≠ '\x7d') ∧
          ((∃ hv, (some ['a', 'n', 'i', 'm', 'a', 'l'] : Option Str) = some hv ∧
              (trimStr hv).isEmpty = false ∧
              containsSub a sepTok = false ∧
              r = pre ++ clozeTok ++ (a ++ sepTok ++ trimStr hv) ++ closeTok ++ post) ∨
            r = pre ++ clozeTok ++ a ++ closeTok ++ post)) ∨
       (warned = true ∧
        r = trimStr ['I', ' ', 's', 'a', 'w', ' ', 'a', ' ', 'd', 'o', 'g'] ∧
        countOcc r clozeTok = 0)) :=
  c3_amended_output_guarantee ['I', ' ', 's', 'a', 'w', ' ', 'a', ' ', 'd', 'o', 'g']
    ['d', 'o', 'g'] (some ['a', 'n', 'i', 'm', 'a', 'l']) (by decide) (by decide) (by decide)
    (by
      intro hv hveq
      injection hveq with h2
      rw [← h2]
      decide)
